import Mathlib

/-!
Verification of the `lancy` compiler back-end core: a shallow embedding of
the mid-level IR (blocks, functions, CFG construction), the liveness
analysis, the dominator tree and the linear-scan register allocator,
together with theorems about the properties stated in the specification.

Conventions of the embedding:
* `Block` keys (`slotmap_key!(Block(u16))`) are embedded as `Nat`; block ids
  are small dense indices produced by `PrimaryMap::insert`.
* In the analysis/regalloc/isa sources (`liveness.rs`, `regalloc.rs`,
  `inst.rs`) a register `Reg` is a plain integer id: physical registers are
  the ids below `preg_count()` and virtual registers the ids at or above it
  (`reg_name` prints `v{reg - preg_count}`).  We embed that register
  representation as `Nat`.  The packed bit-field representation of
  `tir/reg.rs` is embedded separately in namespace `Packed` for claim C9.
* Rust panics (`unwrap`, `todo!`, failed `assert!` such as the out-of-range
  `SecondaryMap` index check) are embedded as `Option.none`.
* `FixedBitSet` values are embedded as `Finset Nat`: `ones_count` is
  `Finset.card`, `union`/`difference` are set union and difference, `has`
  is membership (out-of-range queries are `false`, i.e. non-membership).
-/

/-- Program point, from `analysis/liveness.rs`: a `(block, inst_index)`
pair.  The Rust derives `PartialOrd`/`Ord`, i.e. lexicographic order on the
field order `(block, inst_index)`. -/
structure ProgramPoint where
  block : Nat
  instIndex : Nat
deriving DecidableEq, Repr

/-- Lexicographic key of a program point, used to transport the derived
`Ord` of the Rust structure. -/
def ProgramPoint.key (p : ProgramPoint) : Lex (Nat × Nat) :=
  toLex (p.block, p.instIndex)

theorem ProgramPoint.key_injective : Function.Injective ProgramPoint.key := by
  intro a b h
  cases a; cases b
  simpa [ProgramPoint.key, toLex, ProgramPoint.mk.injEq] using h

instance : LinearOrder ProgramPoint :=
  LinearOrder.lift' ProgramPoint.key ProgramPoint.key_injective

theorem ProgramPoint.le_iff {a b : ProgramPoint} :
    a ≤ b ↔ a.block < b.block ∨ (a.block = b.block ∧ a.instIndex ≤ b.instIndex) := by
  show a.key ≤ b.key ↔ _
  cases a; cases b
  simp [ProgramPoint.key, Prod.Lex.le_iff]

theorem ProgramPoint.lt_iff {a b : ProgramPoint} :
    a < b ↔ a.block < b.block ∨ (a.block = b.block ∧ a.instIndex < b.instIndex) := by
  show a.key < b.key ↔ _
  cases a; cases b
  simp [ProgramPoint.key, Prod.Lex.lt_iff]

/-- Live range, from `analysis/liveness.rs`.  The Rust field `end` is a Lean
keyword, so it is embedded under the name `stop`. -/
structure LiveRange where
  reg : Nat
  start : ProgramPoint
  stop : ProgramPoint
deriving DecidableEq, Repr

/-- Instruction capability contract, from `tir/inst.rs` (`trait Inst`).
`replace` substitutes one register for another throughout an instruction. -/
structure InstSet (I : Type) where
  isBranch : I → Bool
  isRet : I → Bool
  getUses : I → List Nat
  getDefs : I → List Nat
  getBranchTargets : I → List Nat
  replace : I → Nat → Nat → I
  pregCount : Nat

/-- Default `is_term` of `trait Inst`: a branch or a return. -/
def InstSet.isTerm {I : Type} (S : InstSet I) (i : I) : Bool :=
  S.isBranch i || S.isRet i

/-- Condition codes of `isa/x64/inst.rs`. -/
inductive Cond where
  | Z | NZ | B | NB | BE | NBE | L | LE | NL | NLE | O | NO | P | NP | S | NS
deriving DecidableEq, Repr

/-- Memory operand of `isa/x64/inst.rs`. -/
structure Mem where
  reg : Nat
  index : Option Nat
  scale : Nat
  disp : Int
deriving DecidableEq, Repr

/-- The x86-64 instruction type of `isa/x64/inst.rs`. -/
inductive X64Inst where
  | Ret
  | Jmp (dst : Nat)
  | CondJmp (cond : Cond) (taken notTaken : Nat)
  | Mov64rm (dst : Nat) (src : Mem)
  | Mov64mr (dst : Mem) (src : Nat)
  | Mov64rr (dst src : Nat)
  | Mov64ri64 (dst : Nat) (src : Int)
  | Mov64mi64 (dst : Mem) (src : Int)
  | CMP64rr (lhs rhs : Nat)
deriving DecidableEq, Repr

/-- Uses of a memory operand (`Mem::get_uses`). -/
def Mem.getUses (m : Mem) : List Nat :=
  match m.index with
  | some idx => [m.reg, idx]
  | none => [m.reg]

/-- Register substitution helper of `X64Inst::replace`. -/
def replaceReg (cur old new : Nat) : Nat :=
  if old = cur then new else cur

/-- Memory operand substitution helper of `X64Inst::replace`. -/
def replaceMem (m : Mem) (old new : Nat) : Mem :=
  { reg := replaceReg m.reg old new
    index := match m.index with
      | some idx => some (replaceReg idx old new)
      | none => none
    scale := m.scale
    disp := m.disp }

/-- The `impl Inst for X64Inst` of `isa/x64/inst.rs` with
`REGISTERS_COUNT = 16` physical registers (`isa/x64/regs.rs`).
`get_defs` of `Mov64mi64` and `CMP64rr` is `todo!()` in the source (a
panic); those constructors appear in no concrete program evaluated in this
file, and the generic theorems treat `getDefs` opaquely, so they are
embedded as `[]`. -/
def x64 : InstSet X64Inst where
  isBranch i :=
    match i with
    | .Jmp _ => true
    | .CondJmp _ _ _ => true
    | _ => false
  isRet i :=
    match i with
    | .Ret => true
    | _ => false
  getUses i :=
    match i with
    | .Ret => []
    | .Jmp _ => []
    | .CondJmp _ _ _ => []
    | .Mov64rm _ src => src.getUses
    | .Mov64mr dst src => dst.getUses ++ [src]
    | .Mov64rr _ src => [src]
    | .Mov64ri64 _ _ => []
    | .Mov64mi64 dst _ => dst.getUses
    | .CMP64rr lhs rhs => [lhs, rhs]
  getDefs i :=
    match i with
    | .Ret => []
    | .Jmp _ => []
    | .CondJmp _ _ _ => []
    | .Mov64rm dst _ => [dst]
    | .Mov64mr _ _ => []
    | .Mov64rr dst _ => [dst]
    | .Mov64ri64 dst _ => [dst]
    | .Mov64mi64 _ _ => []
    | .CMP64rr _ _ => []
  getBranchTargets i :=
    match i with
    | .Jmp dst => [dst]
    | .CondJmp _ taken notTaken => [taken, notTaken]
    | _ => []
  replace i old new :=
    match i with
    | .Ret => .Ret
    | .Jmp dst => .Jmp dst
    | .CondJmp c t n => .CondJmp c t n
    | .Mov64rm dst src => .Mov64rm (replaceReg dst old new) (replaceMem src old new)
    | .Mov64mr dst src => .Mov64mr (replaceMem dst old new) (replaceReg src old new)
    | .Mov64rr dst src => .Mov64rr (replaceReg dst old new) (replaceReg src old new)
    | .Mov64ri64 dst src => .Mov64ri64 (replaceReg dst old new) src
    | .Mov64mi64 dst src => .Mov64mi64 (replaceMem dst old new) src
    | .CMP64rr lhs rhs => .CMP64rr (replaceReg lhs old new) (replaceReg rhs old new)
  pregCount := 16

/-- Block data, from `tir/block.rs`: an ordered instruction sequence. -/
abbrev BlockData (I : Type) := List I

/-- Terminator lookup of `BlockData::get_terminator`: the last instruction,
and only when that instruction classifies as a terminator. -/
def getTerminator {I : Type} (S : InstSet I) (bd : BlockData I) : Option I :=
  match bd.getLast? with
  | some i => if S.isTerm i then some i else none
  | none => none

/-- Error type of `tir/errors.rs`. -/
inductive TirError where
  | blockNotTerminated (block : Nat)
  | emptyFunctionBody
deriving DecidableEq, Repr

/-- CFG node, from `tir/cfg.rs`. -/
structure CFGNode where
  successors : List Nat
  predecessors : List Nat
deriving DecidableEq, Repr

instance : Inhabited CFGNode := ⟨⟨[], []⟩⟩

/-- Control-flow graph, from `tir/cfg.rs`: a `SecondaryMap<Block, CFGNode>`
of fixed capacity (embedded as a list of that length) plus the entry. -/
structure CFG where
  entry : Nat
  nodes : List CFGNode
deriving DecidableEq, Repr

/-- Constructor `CFG::new(entry, size)`: default nodes. -/
def CFG.new (entry size : Nat) : CFG :=
  ⟨entry, List.replicate size default⟩

/-- Count used via `CFG::blocks_count` (capacity of the secondary map). -/
def CFG.blocksCount (c : CFG) : Nat := c.nodes.length

/-- Successor list of a block.  The `SecondaryMap` index asserts
`block < capacity` in the source; every read performed by the embedded
algorithms is in bounds, and the default node is returned out of range. -/
def CFG.succList (c : CFG) (b : Nat) : List Nat :=
  (c.nodes.getD b default).successors

/-- Predecessor list of a block (same indexing convention as `succList`). -/
def CFG.predList (c : CFG) (b : Nat) : List Nat :=
  (c.nodes.getD b default).predecessors

/-- Edge insertion `CFG::add_edge(successor, predecessor)`: pushes onto both
lists.  The out-of-range `SecondaryMap` index is a failed `assert!`, i.e. a
panic, embedded as `none`. -/
def CFG.addEdge (c : CFG) (successor predecessor : Nat) : Option CFG :=
  if successor < c.nodes.length ∧ predecessor < c.nodes.length then
    let n1 := c.nodes.getD successor default
    let c1 : CFG := ⟨c.entry, c.nodes.set successor
      { n1 with predecessors := n1.predecessors ++ [predecessor] }⟩
    let n2 := c1.nodes.getD predecessor default
    some ⟨c1.entry, c1.nodes.set predecessor
      { n2 with successors := n2.successors ++ [successor] }⟩
  else
    none

/-- Function, from `tir/func.rs`: an arena of blocks, the virtual-register
counter and the optionally cached CFG.  The name and the argument/result
register lists play no role in any claim and are omitted. -/
structure Func (I : Type) where
  blocks : List (BlockData I)
  vregsCount : Nat
  cfg : Option CFG

/-- Entry block lookup (`Func::get_entry_block`): block 0 when a block
exists. -/
def Func.getEntryBlock {I : Type} (f : Func I) : Option Nat :=
  if 0 < f.blocks.length then some 0 else none

/-- Mutation `Func::add_block`: invalidates the cached CFG and appends,
returning the new key (the previous length). -/
def Func.addBlock {I : Type} (f : Func I) (data : BlockData I) : Func I × Nat :=
  ({ f with cfg := none, blocks := f.blocks ++ [data] }, f.blocks.length)

/-- Mutation `Func::add_empty_block`. -/
def Func.addEmptyBlock {I : Type} (f : Func I) : Func I × Nat :=
  f.addBlock []

/-- Mutable access `Func::get_block_data_mut`: invalidates the cached CFG
and hands out the block data (the arena index panics out of range; claim
contexts stay in bounds, out of range the empty data is returned). -/
def Func.getBlockDataMut {I : Type} (f : Func I) (b : Nat) : Func I × BlockData I :=
  ({ f with cfg := none }, f.blocks.getD b [])

/-- Read access `Func::get_block_data` (no invalidation). -/
def Func.getBlockData {I : Type} (f : Func I) (b : Nat) : BlockData I :=
  f.blocks.getD b []

/-- Cache read `Func::get_cfg`: `unwrap` of the cached CFG; calling it with
no cached CFG is a panic, embedded as `none`. -/
def Func.getCfg {I : Type} (f : Func I) : Option CFG :=
  f.cfg

/-- Register-universe size `Func::get_regs_count`, called by `liveness.rs`
and `regalloc.rs` but absent from the `func.rs` snapshot.  Modelled from the
spec: physical registers occupy the reserved low id range demarcated by
`preg_count()` and virtual ids follow, so the universe holds
`preg_count() + vregs_count` ids. -/
def Func.getRegsCount {I : Type} (S : InstSet I) (f : Func I) : Nat :=
  S.pregCount + f.vregsCount

/-- Edge pass of `Func::construct_cfg`: walk the blocks in arena order
(index `idx` onward), require a terminator, and add an edge to every branch
target of a branch terminator.  `none` is a panic inside `add_edge`. -/
def constructCfgAux {I : Type} (S : InstSet I) :
    List (BlockData I) → Nat → CFG → Option (Except TirError CFG)
  | [], _, cfg => some (.ok cfg)
  | bd :: rest, idx, cfg =>
    match getTerminator S bd with
    | none => some (.error (.blockNotTerminated idx))
    | some term =>
      if S.isBranch term then
        match (S.getBranchTargets term).foldlM (fun c t => CFG.addEdge c t idx) cfg with
        | none => none
        | some cfg' => constructCfgAux S rest (idx + 1) cfg'
      else
        constructCfgAux S rest (idx + 1) cfg

/-- CFG construction `Func::construct_cfg(&mut self) -> Result<(), TirError>`.
The outer `Option` is panic (out-of-range branch target), the `Except` is
the returned `Result`, and the second component is the function after the
call (`self`): it is written only by the final `self.cfg = Some(cfg)` of the
success path. -/
def Func.constructCfg {I : Type} (S : InstSet I) (f : Func I) :
    Option (Except TirError Unit × Func I) :=
  match f.getEntryBlock with
  | none => some (.error .emptyFunctionBody, f)
  | some entry =>
    match constructCfgAux S f.blocks 0 (CFG.new entry f.blocks.length) with
    | none => none
    | some (.error e) => some (.error e, f)
    | some (.ok cfg) => some (.ok (), { f with cfg := some cfg })

/-- Targets contributed by a block to the CFG: the branch targets of its
terminator when that terminator is a branch, nothing otherwise. -/
def termTargets {I : Type} (S : InstSet I) (bd : BlockData I) : List Nat :=
  match getTerminator S bd with
  | some t => if S.isBranch t then S.getBranchTargets t else []
  | none => []

/-- Reading a freshly written cell of a list. -/
theorem listGetD_set_self {α : Type} (l : List α) (i : Nat) (a d : α) (h : i < l.length) :
    (l.set i a).getD i d = a := by
  simp [List.getD_eq_getElem?_getD, List.getElem?_set_self, h]

/-- Reading another cell of a written list. -/
theorem listGetD_set_other {α : Type} (l : List α) (i j : Nat) (a d : α) (h : i ≠ j) :
    (l.set i a).getD j d = l.getD j d := by
  simp [List.getD_eq_getElem?_getD, List.getElem?_set_ne h]

theorem CFG.addEdge_bounds {c c' : CFG} {s p : Nat} (h : c.addEdge s p = some c') :
    s < c.nodes.length ∧ p < c.nodes.length := by
  unfold CFG.addEdge at h
  split at h
  · assumption
  · simp at h

theorem CFG.addEdge_length {c c' : CFG} {s p : Nat} (h : c.addEdge s p = some c') :
    c'.nodes.length = c.nodes.length := by
  unfold CFG.addEdge at h
  split at h
  · cases h; simp
  · simp at h

theorem CFG.addEdge_succList {c c' : CFG} {s p : Nat} (h : c.addEdge s p = some c')
    (b : Nat) :
    c'.succList b = if b = p then c.succList b ++ [s] else c.succList b := by
  obtain ⟨hs, hp⟩ := CFG.addEdge_bounds h
  unfold CFG.addEdge at h
  rw [if_pos ⟨hs, hp⟩] at h
  injection h with h
  subst h
  by_cases hbp : b = p
  · subst hbp
    rw [if_pos rfl]
    simp only [CFG.succList]
    rw [listGetD_set_self _ _ _ _ (by simpa using hp)]
    by_cases hsb : s = b
    · subst hsb
      rw [listGetD_set_self _ _ _ _ hs]
    · rw [listGetD_set_other _ _ _ _ _ hsb]
  · rw [if_neg hbp]
    simp only [CFG.succList]
    rw [listGetD_set_other _ _ _ _ _ (fun hh => hbp hh.symm)]
    by_cases hsb : s = b
    · subst hsb
      rw [listGetD_set_self _ _ _ _ hs]
    · rw [listGetD_set_other _ _ _ _ _ hsb]

theorem CFG.addEdge_predList {c c' : CFG} {s p : Nat} (h : c.addEdge s p = some c')
    (b : Nat) :
    c'.predList b = if b = s then c.predList b ++ [p] else c.predList b := by
  obtain ⟨hs, hp⟩ := CFG.addEdge_bounds h
  unfold CFG.addEdge at h
  rw [if_pos ⟨hs, hp⟩] at h
  injection h with h
  subst h
  simp only [CFG.predList]
  by_cases hbs : b = s
  · subst hbs
    rw [if_pos rfl]
    by_cases hpb : p = b
    · subst hpb
      rw [listGetD_set_self _ p _ _ (by simpa using hp)]
      rw [listGetD_set_self _ p _ _ hp]
    · rw [listGetD_set_other _ p b _ _ hpb]
      rw [listGetD_set_self _ b _ _ hs]
  · rw [if_neg hbs]
    by_cases hpb : b = p
    · subst hpb
      rw [listGetD_set_self _ b _ _ (by simpa using hp)]
      rw [listGetD_set_other _ s b _ _ (fun hh => hbs hh.symm)]
    · rw [listGetD_set_other _ p b _ _ (fun hh => hpb hh.symm)]
      rw [listGetD_set_other _ s b _ _ (fun hh => hbs hh.symm)]

/-- Edge consistency of a CFG: an edge is recorded in the successor list of
its source exactly when it is recorded in the predecessor list of its
target.  `CFG::add_edge` always records both directions. -/
def CFG.consistent (c : CFG) : Prop :=
  ∀ p b : Nat, b ∈ c.succList p ↔ p ∈ c.predList b

/-- Boundedness of a CFG: recorded edges only name blocks inside the arena
capacity. -/
def CFG.bounded (c : CFG) : Prop :=
  ∀ b x : Nat, (x ∈ c.succList b → x < c.nodes.length)
    ∧ (x ∈ c.predList b → x < c.nodes.length)

theorem CFG.addEdge_consistent {c c' : CFG} {s p : Nat} (h : c.addEdge s p = some c')
    (hc : c.consistent) : c'.consistent := by
  intro q b
  rw [CFG.addEdge_succList h, CFG.addEdge_predList h]
  by_cases h1 : q = p <;> by_cases h2 : b = s
  · rw [if_pos h1, if_pos h2]; simp [h1, h2]
  · rw [if_pos h1, if_neg h2]; simp [h1, h2, hc p b]
  · rw [if_neg h1, if_pos h2]; simp [h1, h2, hc q s]
  · rw [if_neg h1, if_neg h2]; exact hc q b

theorem CFG.addEdge_bounded {c c' : CFG} {s p : Nat} (h : c.addEdge s p = some c')
    (hb : c.bounded) : c'.bounded := by
  obtain ⟨hs, hp⟩ := CFG.addEdge_bounds h
  have hlen := CFG.addEdge_length h
  intro b x
  rw [CFG.addEdge_succList h, CFG.addEdge_predList h, hlen]
  constructor
  · intro hx
    by_cases h1 : b = p
    · rw [if_pos h1] at hx
      rcases List.mem_append.mp hx with hx | hx
      · exact ((hb b x).1 hx)
      · simp at hx; omega
    · rw [if_neg h1] at hx
      exact (hb b x).1 hx
  · intro hx
    by_cases h1 : b = s
    · rw [if_pos h1] at hx
      rcases List.mem_append.mp hx with hx | hx
      · exact ((hb b x).2 hx)
      · simp at hx; omega
    · rw [if_neg h1] at hx
      exact (hb b x).2 hx

theorem CFG.new_succList (e n b : Nat) : (CFG.new e n).succList b = [] := by
  unfold CFG.new CFG.succList
  rcases Nat.lt_or_ge b n with h | h
  · rw [List.getD_eq_getElem?_getD, List.getElem?_replicate]
    simp [h, default]
  · rw [List.getD_eq_getElem?_getD, List.getElem?_replicate]
    simp [Nat.not_lt.mpr h, default]

theorem CFG.new_predList (e n b : Nat) : (CFG.new e n).predList b = [] := by
  unfold CFG.new CFG.predList
  rcases Nat.lt_or_ge b n with h | h
  · rw [List.getD_eq_getElem?_getD, List.getElem?_replicate]
    simp [h, default]
  · rw [List.getD_eq_getElem?_getD, List.getElem?_replicate]
    simp [Nat.not_lt.mpr h, default]

theorem CFG.new_consistent (e n : Nat) : (CFG.new e n).consistent := by
  intro p b
  simp [CFG.new_succList, CFG.new_predList]

theorem CFG.new_bounded (e n : Nat) : (CFG.new e n).bounded := by
  intro b x
  simp [CFG.new_succList, CFG.new_predList]

/-- Characterization of a successful fold of `add_edge` over the branch
targets of one block. -/
theorem foldl_addEdge_ok {targets : List Nat} {cfg cfg' : CFG} {idx : Nat}
    (h : targets.foldlM (fun c t => CFG.addEdge c t idx) cfg = some cfg') :
    (∀ b, cfg'.succList b = if b = idx then cfg.succList b ++ targets else cfg.succList b)
    ∧ cfg'.nodes.length = cfg.nodes.length
    ∧ (cfg.consistent → cfg'.consistent)
    ∧ (cfg.bounded → cfg'.bounded) := by
  induction targets generalizing cfg with
  | nil =>
    have hc : cfg = cfg' := by simpa using h
    subst hc
    refine ⟨fun b => by simp only [List.append_nil]; split <;> rfl, rfl, id, id⟩
  | cons t ts ih =>
    rw [List.foldlM_cons] at h
    cases h1 : CFG.addEdge cfg t idx with
    | none => rw [h1] at h; simp at h
    | some cfg1 =>
      rw [h1] at h
      simp only [Option.bind_eq_bind, Option.some_bind] at h
      obtain ⟨hsucc, hlen, hcons, hbdd⟩ := ih h
      refine ⟨fun b => ?_, by rw [hlen, CFG.addEdge_length h1], ?_, ?_⟩
      · rw [hsucc b, CFG.addEdge_succList h1 b]
        by_cases hb : b = idx <;> simp [hb]
      · intro hc
        exact hcons (CFG.addEdge_consistent h1 hc)
      · intro hc
        exact hbdd (CFG.addEdge_bounded h1 hc)

theorem termTargets_eq_of_branch {I : Type} (S : InstSet I) {bd : BlockData I} {t : I}
    (h : getTerminator S bd = some t) (hbr : S.isBranch t = true) :
    termTargets S bd = S.getBranchTargets t := by
  simp only [termTargets, h]
  rw [if_pos hbr]

theorem termTargets_eq_of_not_branch {I : Type} (S : InstSet I) {bd : BlockData I} {t : I}
    (h : getTerminator S bd = some t) (hbr : ¬ S.isBranch t = true) :
    termTargets S bd = [] := by
  simp only [termTargets, h]
  rw [if_neg hbr]

/-- Characterization of a successful edge pass: each block in the walked
range contributes exactly its terminator's branch targets as successors;
consistency and boundedness are preserved. -/
theorem constructCfgAux_ok {I : Type} (S : InstSet I) :
    ∀ (blocks : List (BlockData I)) (idx : Nat) (cfg cfg' : CFG),
    constructCfgAux S blocks idx cfg = some (.ok cfg') →
    (∀ b, cfg'.succList b = cfg.succList b ++
      (if idx ≤ b ∧ b < idx + blocks.length
        then termTargets S (blocks.getD (b - idx) []) else []))
    ∧ cfg'.nodes.length = cfg.nodes.length
    ∧ (cfg.consistent → cfg'.consistent)
    ∧ (cfg.bounded → cfg'.bounded)
  | [], idx, cfg, cfg', h => by
    have hc : cfg = cfg' := by simpa [constructCfgAux] using h
    subst hc
    refine ⟨fun b => ?_, rfl, id, id⟩
    rw [if_neg (by simp only [List.length_nil]; omega), List.append_nil]
  | bd :: rest, idx, cfg, cfg', h => by
    cases hterm : getTerminator S bd with
    | none =>
      simp only [constructCfgAux, hterm] at h
      exact absurd h (by simp)
    | some term =>
      simp only [constructCfgAux, hterm] at h
      by_cases hbr : S.isBranch term
      · rw [if_pos hbr] at h
        cases hfold : (S.getBranchTargets term).foldlM (fun c t => CFG.addEdge c t idx) cfg with
        | none =>
          simp only [hfold] at h
          exact absurd h (by simp)
        | some cfg1 =>
          simp only [hfold] at h
          obtain ⟨hsucc1, hlen1, hcons1, hbdd1⟩ := foldl_addEdge_ok hfold
          obtain ⟨hsucc2, hlen2, hcons2, hbdd2⟩ := constructCfgAux_ok S rest (idx + 1) cfg1 cfg' h
          refine ⟨fun b => ?_, by rw [hlen2, hlen1], fun hc => hcons2 (hcons1 hc),
            fun hc => hbdd2 (hbdd1 hc)⟩
          rw [hsucc2 b, hsucc1 b]
          by_cases hb : b = idx
          · subst hb
            rw [if_pos rfl, if_neg (by omega), if_pos (by simp only [List.length_cons]; omega), List.append_nil]
            simp only [Nat.sub_self, List.getD_cons_zero]
            rw [termTargets_eq_of_branch S hterm hbr]
          · rw [if_neg hb]
            by_cases hrange : idx + 1 ≤ b ∧ b < idx + 1 + rest.length
            · rw [if_pos hrange, if_pos (by simp only [List.length_cons]; omega)]
              have : b - idx = (b - (idx + 1)) + 1 := by omega
              rw [this, List.getD_cons_succ]
            · rw [if_neg hrange, if_neg (by simp only [List.length_cons]; omega)]
      · rw [if_neg hbr] at h
        obtain ⟨hsucc2, hlen2, hcons2, hbdd2⟩ := constructCfgAux_ok S rest (idx + 1) cfg cfg' h
        refine ⟨fun b => ?_, hlen2, hcons2, hbdd2⟩
        rw [hsucc2 b]
        by_cases hb : b = idx
        · subst hb
          rw [if_neg (by omega), if_pos (by simp only [List.length_cons]; omega), List.append_nil]
          simp only [Nat.sub_self, List.getD_cons_zero]
          rw [termTargets_eq_of_not_branch S hterm hbr, List.append_nil]
        · by_cases hrange : idx + 1 ≤ b ∧ b < idx + 1 + rest.length
          · rw [if_pos hrange, if_pos (by simp only [List.length_cons]; omega)]
            have : b - idx = (b - (idx + 1)) + 1 := by omega
            rw [this, List.getD_cons_succ]
          · rw [if_neg hrange, if_neg (by simp only [List.length_cons]; omega)]

/-- Success of the fold of `add_edge`: all targets and the source inside
the arena capacity make every edge insertion succeed. -/
theorem foldl_addEdge_some :
    ∀ (targets : List Nat) (cfg : CFG) (idx : Nat),
    idx < cfg.nodes.length → (∀ t ∈ targets, t < cfg.nodes.length) →
    ∃ cfg1, targets.foldlM (fun c t => CFG.addEdge c t idx) cfg = some cfg1
  | [], cfg, _, _, _ => ⟨cfg, rfl⟩
  | t :: ts, cfg, idx, hidx, htg => by
    obtain ⟨c1, hc1⟩ : ∃ c1, CFG.addEdge cfg t idx = some c1 := by
      unfold CFG.addEdge
      rw [if_pos ⟨htg t (List.mem_cons_self t ts), hidx⟩]
      exact ⟨_, rfl⟩
    have hlen := CFG.addEdge_length hc1
    obtain ⟨cfg1, hfold⟩ := foldl_addEdge_some ts c1 idx (by rw [hlen]; exact hidx)
      (fun x hx => by rw [hlen]; exact htg x (List.mem_cons_of_mem _ hx))
    refine ⟨cfg1, ?_⟩
    rw [List.foldlM_cons, hc1]
    simpa [Option.bind_eq_bind, Option.some_bind] using hfold

/-- Success of the edge pass on a fully terminated block list with
in-range branch targets. -/
theorem constructCfgAux_ok_of_terminated {I : Type} (S : InstSet I) :
    ∀ (blocks : List (BlockData I)) (idx : Nat) (cfg : CFG),
    (∀ bd ∈ blocks, (getTerminator S bd).isSome) →
    (∀ bd ∈ blocks, ∀ t, getTerminator S bd = some t → S.isBranch t →
      ∀ tgt ∈ S.getBranchTargets t, tgt < cfg.nodes.length) →
    idx + blocks.length ≤ cfg.nodes.length →
    ∃ cfg', constructCfgAux S blocks idx cfg = some (.ok cfg')
  | [], _, cfg, _, _, _ => ⟨cfg, rfl⟩
  | bd :: rest, idx, cfg, hterm, hvalid, hidx => by
    cases ht : getTerminator S bd with
    | none => exact absurd (hterm bd (List.mem_cons_self _ _)) (by simp [ht])
    | some term =>
      by_cases hbr : S.isBranch term = true
      · obtain ⟨cfg1, hfold⟩ := foldl_addEdge_some (S.getBranchTargets term) cfg idx
          (by simp only [List.length_cons] at hidx; omega)
          (fun tgt htgt => hvalid bd (List.mem_cons_self _ _) term ht hbr tgt htgt)
        have hlen1 : cfg1.nodes.length = cfg.nodes.length := (foldl_addEdge_ok hfold).2.1
        obtain ⟨cfg', hrec⟩ := constructCfgAux_ok_of_terminated S rest (idx + 1) cfg1
          (fun b hb => hterm b (List.mem_cons_of_mem _ hb))
          (fun b hb t htt hbt tgt htgt => by
            rw [hlen1]; exact hvalid b (List.mem_cons_of_mem _ hb) t htt hbt tgt htgt)
          (by rw [hlen1]; simp only [List.length_cons] at hidx; omega)
        refine ⟨cfg', ?_⟩
        simp only [constructCfgAux, ht]
        rw [if_pos hbr]
        simp only [hfold]
        exact hrec
      · obtain ⟨cfg', hrec⟩ := constructCfgAux_ok_of_terminated S rest (idx + 1) cfg
          (fun b hb => hterm b (List.mem_cons_of_mem _ hb))
          (fun b hb => hvalid b (List.mem_cons_of_mem _ hb))
          (by simp only [List.length_cons] at hidx; omega)
        refine ⟨cfg', ?_⟩
        simp only [constructCfgAux, ht]
        rw [if_neg hbr]
        exact hrec

/-- The edge pass never reports an empty function body. -/
theorem constructCfgAux_ne_empty {I : Type} (S : InstSet I) :
    ∀ (blocks : List (BlockData I)) (idx : Nat) (cfg : CFG),
    constructCfgAux S blocks idx cfg ≠ some (.error .emptyFunctionBody)
  | [], _, _ => by simp [constructCfgAux]
  | bd :: rest, idx, cfg => by
    cases ht : getTerminator S bd with
    | none => simp [constructCfgAux, ht]
    | some term =>
      simp only [constructCfgAux, ht]
      by_cases hbr : S.isBranch term = true
      · rw [if_pos hbr]
        cases hfold : (S.getBranchTargets term).foldlM (fun c t => CFG.addEdge c t idx) cfg with
        | none => simp only [hfold]; simp
        | some cfg1 =>
          simp only [hfold]
          exact constructCfgAux_ne_empty S rest (idx + 1) cfg1
      · rw [if_neg hbr]
        exact constructCfgAux_ne_empty S rest (idx + 1) cfg

/-- A non-terminated block makes the edge pass report it, provided the
blocks before it do not panic first (their branch targets are in range). -/
theorem constructCfgAux_error_of_unterminated {I : Type} (S : InstSet I) :
    ∀ (blocks : List (BlockData I)) (idx : Nat) (cfg : CFG),
    (∀ bd ∈ blocks, ∀ t, getTerminator S bd = some t → S.isBranch t →
      ∀ tgt ∈ S.getBranchTargets t, tgt < cfg.nodes.length) →
    idx + blocks.length ≤ cfg.nodes.length →
    (∃ bd ∈ blocks, getTerminator S bd = none) →
    ∃ j, j < blocks.length
      ∧ constructCfgAux S blocks idx cfg = some (.error (.blockNotTerminated (idx + j)))
      ∧ getTerminator S (blocks.getD j []) = none
  | [], _, _, _, _, hex => by simp at hex
  | bd :: rest, idx, cfg, hvalid, hidx, hex => by
    cases ht : getTerminator S bd with
    | none =>
      refine ⟨0, by simp, ?_, by simpa using ht⟩
      simp only [constructCfgAux, ht, Nat.add_zero]
    | some term =>
      have hex' : ∃ bd' ∈ rest, getTerminator S bd' = none := by
        rcases hex with ⟨bd', hmem, hnone⟩
        rcases List.mem_cons.mp hmem with rfl | hmem'
        · exact absurd hnone (by simp [ht])
        · exact ⟨bd', hmem', hnone⟩
      by_cases hbr : S.isBranch term = true
      · obtain ⟨cfg1, hfold⟩ := foldl_addEdge_some (S.getBranchTargets term) cfg idx
          (by simp only [List.length_cons] at hidx; omega)
          (fun tgt htgt => hvalid bd (List.mem_cons_self _ _) term ht hbr tgt htgt)
        have hlen1 : cfg1.nodes.length = cfg.nodes.length := (foldl_addEdge_ok hfold).2.1
        obtain ⟨j, hj, hrec, hnone⟩ := constructCfgAux_error_of_unterminated S rest (idx + 1) cfg1
          (fun b hb t htt hbt tgt htgt => by
            rw [hlen1]; exact hvalid b (List.mem_cons_of_mem _ hb) t htt hbt tgt htgt)
          (by rw [hlen1]; simp only [List.length_cons] at hidx; omega) hex'
        refine ⟨j + 1, by simp only [List.length_cons]; omega, ?_, by simpa using hnone⟩
        simp only [constructCfgAux, ht]
        rw [if_pos hbr]
        simp only [hfold]
        rw [hrec]
        have : idx + 1 + j = idx + (j + 1) := by omega
        rw [this]
      · obtain ⟨j, hj, hrec, hnone⟩ := constructCfgAux_error_of_unterminated S rest (idx + 1) cfg
          (fun b hb => hvalid b (List.mem_cons_of_mem _ hb))
          (by simp only [List.length_cons] at hidx; omega) hex'
        refine ⟨j + 1, by simp only [List.length_cons]; omega, ?_, by simpa using hnone⟩
        simp only [constructCfgAux, ht]
        rw [if_neg hbr]
        rw [hrec]
        have : idx + 1 + j = idx + (j + 1) := by omega
        rw [this]

theorem CFG.addEdge_entry {c c' : CFG} {s p : Nat} (h : c.addEdge s p = some c') :
    c'.entry = c.entry := by
  unfold CFG.addEdge at h
  split at h
  · cases h; rfl
  · simp at h

theorem foldl_addEdge_entry :
    ∀ {targets : List Nat} {cfg cfg' : CFG} {idx : Nat},
    targets.foldlM (fun c t => CFG.addEdge c t idx) cfg = some cfg' → cfg'.entry = cfg.entry := by
  intro targets
  induction targets with
  | nil =>
    intro cfg cfg' idx h
    have hcc : cfg = cfg' := by simpa using h
    subst hcc
    rfl
  | cons t ts ih =>
    intro cfg cfg' idx h
    rw [List.foldlM_cons] at h
    cases h1 : CFG.addEdge cfg t idx with
    | none => rw [h1] at h; simp at h
    | some cfg1 =>
      rw [h1] at h
      simp only [Option.bind_eq_bind, Option.some_bind] at h
      rw [ih h, CFG.addEdge_entry h1]

theorem constructCfgAux_entry {I : Type} (S : InstSet I) :
    ∀ (blocks : List (BlockData I)) (idx : Nat) (cfg cfg' : CFG),
    constructCfgAux S blocks idx cfg = some (.ok cfg') → cfg'.entry = cfg.entry
  | [], _, cfg, cfg', h => by
    have : cfg = cfg' := by simpa [constructCfgAux] using h
    rw [this]
  | bd :: rest, idx, cfg, cfg', h => by
    cases ht : getTerminator S bd with
    | none =>
      simp only [constructCfgAux, ht] at h
      exact absurd h (by simp)
    | some term =>
      simp only [constructCfgAux, ht] at h
      by_cases hbr : S.isBranch term = true
      · rw [if_pos hbr] at h
        cases hfold : (S.getBranchTargets term).foldlM (fun c t => CFG.addEdge c t idx) cfg with
        | none =>
          simp only [hfold] at h
          exact absurd h (by simp)
        | some cfg1 =>
          simp only [hfold] at h
          rw [constructCfgAux_entry S rest (idx + 1) cfg1 cfg' h, foldl_addEdge_entry hfold]
      · rw [if_neg hbr] at h
        exact constructCfgAux_entry S rest (idx + 1) cfg cfg' h

/-- Characterization of a successful `construct_cfg` call: the cached CFG
exists, its capacity is the block count, it is edge-consistent and bounded,
and each block's successor list is exactly its terminator's contribution. -/
theorem constructCfg_ok_char {I : Type} (S : InstSet I) {f f' : Func I}
    (h : f.constructCfg S = some (.ok (), f')) :
    ∃ cfg, f'.cfg = some cfg
      ∧ f'.blocks = f.blocks
      ∧ cfg.nodes.length = f.blocks.length
      ∧ cfg.consistent ∧ cfg.bounded
      ∧ cfg.entry = 0
      ∧ (∀ b, cfg.succList b =
          if b < f.blocks.length then termTargets S (f.getBlockData b) else []) := by
  unfold Func.constructCfg at h
  cases hE : f.getEntryBlock with
  | none => rw [hE] at h; exact absurd h (by simp)
  | some entry =>
    simp only [hE] at h
    cases haux : constructCfgAux S f.blocks 0 (CFG.new entry f.blocks.length) with
    | none => simp only [haux] at h; exact absurd h (by simp)
    | some res =>
      simp only [haux] at h
      cases res with
      | error e => simp at h
      | ok cfg =>
        simp only [Option.some_inj, Prod.mk.injEq] at h
        obtain ⟨-, hf'⟩ := h
        subst hf'
        obtain ⟨hsucc, hlen, hcons, hbdd⟩ :=
          constructCfgAux_ok S f.blocks 0 (CFG.new entry f.blocks.length) cfg haux
        have hentry : entry = 0 := by
          unfold Func.getEntryBlock at hE
          by_cases h0 : 0 < f.blocks.length
          · rw [if_pos h0] at hE; exact (Option.some_inj.mp hE).symm
          · rw [if_neg h0] at hE; exact absurd hE (by simp)
        refine ⟨cfg, rfl, rfl, by simpa [CFG.new] using hlen, hcons (CFG.new_consistent _ _),
          hbdd (CFG.new_bounded _ _), ?_, fun b => ?_⟩
        · have : cfg.entry = (CFG.new entry f.blocks.length).entry := by
            clear hsucc
            revert haux
            generalize CFG.new entry f.blocks.length = c0
            intro haux
            exact constructCfgAux_entry S f.blocks 0 c0 cfg haux
          rw [this, CFG.new, hentry]
        · rw [hsucc b, CFG.new_succList, List.nil_append]
          by_cases hb : b < f.blocks.length
          · rw [if_pos (by omega), if_pos hb]
            simp [Func.getBlockData]
          · rw [if_neg (by omega), if_neg hb]

/-- Concrete two-block function of the repository's own regalloc/liveness
tests: block 0 is `mov v0 rax; jmp @1`, block 1 is `mov rax v0; ret`;
register 16 is v0 (the first virtual id above the 16 physical ids). -/
def sampleFunc : Func X64Inst :=
  { blocks := [[.Mov64rr 16 0, .Jmp 1], [.Mov64rr 0 16, .Ret]]
    vregsCount := 1
    cfg := none }

/-- The CFG that `construct_cfg` computes for `sampleFunc`. -/
def sampleCfg : CFG :=
  { entry := 0
    nodes := [{ successors := [1], predecessors := [] },
              { successors := [], predecessors := [0] }] }

/-- The state of `sampleFunc` after a successful `construct_cfg`. -/
def sampleFuncBuilt : Func X64Inst :=
  { sampleFunc with cfg := some sampleCfg }

/-- Claim C6 (amended): `construct_cfg` returns `Err(EmptyFunctionBody)` iff
the function has zero blocks; provided every branch target of every
terminator names an existing block (otherwise construction is a fatal
out-of-range arena access, i.e. a panic, not a returned `Result`), a
non-terminated block is reported as `Err(BlockNotTerminated(b))` with `b`
such a block, and otherwise `Ok` is returned. -/
theorem construct_cfg_error_taxonomy {I : Type} (S : InstSet I) (f : Func I)
    (hvalid : ∀ bd ∈ f.blocks, ∀ t, getTerminator S bd = some t → S.isBranch t = true →
      ∀ tgt ∈ S.getBranchTargets t, tgt < f.blocks.length) :
    ((∃ f', f.constructCfg S = some (.error .emptyFunctionBody, f')) ↔ f.blocks = [])
    ∧ ((∃ bd ∈ f.blocks, getTerminator S bd = none) →
        ∃ b f', f.constructCfg S = some (.error (.blockNotTerminated b), f')
          ∧ getTerminator S (f.getBlockData b) = none)
    ∧ ((f.blocks ≠ [] ∧ ∀ bd ∈ f.blocks, (getTerminator S bd).isSome) →
        ∃ f', f.constructCfg S = some (.ok (), f')) := by
  by_cases hb : f.blocks = []
  · have hE : f.getEntryBlock = none := by
      unfold Func.getEntryBlock
      rw [if_neg (by simp [hb])]
    refine ⟨?_, ?_, ?_⟩
    · unfold Func.constructCfg
      rw [hE]
      exact ⟨fun _ => hb, fun _ => ⟨f, rfl⟩⟩
    · intro hex
      rcases hex with ⟨bd, hmem, -⟩
      rw [hb] at hmem
      simp at hmem
    · intro hex
      exact absurd hb hex.1
  · have hE : f.getEntryBlock = some 0 := by
      unfold Func.getEntryBlock
      rw [if_pos (by cases hfb : f.blocks with
        | nil => exact absurd hfb hb
        | cons x xs => simp [hfb])]
    have hnewlen : (CFG.new 0 f.blocks.length).nodes.length = f.blocks.length := by
      simp [CFG.new]
    refine ⟨?_, ?_, ?_⟩
    · constructor
      · rintro ⟨f', hf'⟩
        unfold Func.constructCfg at hf'
        rw [hE] at hf'
        cases haux : constructCfgAux S f.blocks 0 (CFG.new 0 f.blocks.length) with
        | none => simp only [haux] at hf'; exact absurd hf' (by simp)
        | some res =>
          simp only [haux] at hf'
          cases res with
          | error e =>
            simp only [Option.some_inj, Prod.mk.injEq, Except.error.injEq] at hf'
            obtain ⟨he, -⟩ := hf'
            rw [he] at haux
            exact absurd haux (constructCfgAux_ne_empty S f.blocks 0 _)
          | ok cfg => simp at hf'
      · intro hbb
        exact absurd hbb hb
    · intro hex
      obtain ⟨j, hj, haux, hnone⟩ := constructCfgAux_error_of_unterminated S f.blocks 0
        (CFG.new 0 f.blocks.length)
        (fun bd hmem t ht hbr tgt htgt => by
          rw [hnewlen]; exact hvalid bd hmem t ht hbr tgt htgt)
        (by rw [hnewlen]; omega) hex
      refine ⟨j, f, ?_, hnone⟩
      unfold Func.constructCfg
      rw [hE]
      rw [Nat.zero_add] at haux
      simp only [haux]
    · rintro ⟨-, hterm⟩
      obtain ⟨cfg, haux⟩ := constructCfgAux_ok_of_terminated S f.blocks 0
        (CFG.new 0 f.blocks.length) hterm
        (fun bd hmem t ht hbr tgt htgt => by
          rw [hnewlen]; exact hvalid bd hmem t ht hbr tgt htgt)
        (by rw [hnewlen]; omega)
      refine ⟨{ f with cfg := some cfg }, ?_⟩
      unfold Func.constructCfg
      rw [hE]
      simp only [haux]

/-- Claim C6 counterexample: a non-empty, fully terminated function whose
single block branches to the nonexistent block 5: the original claim
promises `Ok`, but `construct_cfg` panics (`none`), returning neither `Ok`
nor an error. -/
theorem construct_cfg_panics_on_foreign_target :
    (∀ bd ∈ ({ blocks := [[X64Inst.Jmp 5]], vregsCount := 0, cfg := none } : Func X64Inst).blocks,
      (getTerminator x64 bd).isSome = true)
    ∧ ({ blocks := [[X64Inst.Jmp 5]], vregsCount := 0, cfg := none } : Func X64Inst).blocks ≠ []
    ∧ Func.constructCfg x64 { blocks := [[X64Inst.Jmp 5]], vregsCount := 0, cfg := none } = none := by
  refine ⟨?_, by simp, rfl⟩
  intro bd hbd
  simp only [List.mem_singleton] at hbd
  subst hbd
  rfl

/-- Claim C6 witness: on the two-block sample function every hypothesis of
the taxonomy holds and the Ok case fires. -/
theorem construct_cfg_error_taxonomy_witness :
    (sampleFunc.blocks ≠ [] ∧ ∀ bd ∈ sampleFunc.blocks, (getTerminator x64 bd).isSome)
    ∧ ∃ f', sampleFunc.constructCfg x64 = some (.ok (), f') := by
  have hvalid : ∀ bd ∈ sampleFunc.blocks, ∀ t, getTerminator x64 bd = some t →
      x64.isBranch t = true → ∀ tgt ∈ x64.getBranchTargets t, tgt < sampleFunc.blocks.length := by
    intro bd hbd t ht hbr tgt htgt
    simp only [sampleFunc, List.mem_cons, List.mem_singleton, List.not_mem_nil, or_false] at hbd
    rcases hbd with rfl | rfl
    · have : t = X64Inst.Jmp 1 := Option.some_inj.mp ht.symm
      subst this
      simp only [x64] at htgt
      simp only [List.mem_singleton] at htgt
      subst htgt
      simp [sampleFunc]
    · have : t = X64Inst.Ret := Option.some_inj.mp ht.symm
      subst this
      exact absurd hbr (by simp [x64])
  have hside : sampleFunc.blocks ≠ [] ∧ ∀ bd ∈ sampleFunc.blocks, (getTerminator x64 bd).isSome := by
    refine ⟨by simp [sampleFunc], ?_⟩
    intro bd hbd
    simp only [sampleFunc, List.mem_cons, List.mem_singleton, List.not_mem_nil, or_false] at hbd
    rcases hbd with rfl | rfl <;> rfl
  exact ⟨hside, (construct_cfg_error_taxonomy x64 sampleFunc hvalid).2.2 hside⟩

/-- Claim C7: if `construct_cfg` returns an error, the function (and in
particular its cached CFG slot) is exactly what it was before the call. -/
theorem construct_cfg_error_preserves_cache {I : Type} (S : InstSet I) (f f' : Func I)
    (e : TirError) (h : f.constructCfg S = some (.error e, f')) :
    f' = f ∧ f'.cfg = f.cfg := by
  unfold Func.constructCfg at h
  cases hE : f.getEntryBlock with
  | none =>
    rw [hE] at h
    simp only [Option.some_inj, Prod.mk.injEq] at h
    exact ⟨h.2.symm, by rw [h.2]⟩
  | some entry =>
    simp only [hE] at h
    cases haux : constructCfgAux S f.blocks 0 (CFG.new entry f.blocks.length) with
    | none => simp only [haux] at h; exact absurd h (by simp)
    | some res =>
      simp only [haux] at h
      cases res with
      | error e' =>
        simp only [Option.some_inj, Prod.mk.injEq] at h
        exact ⟨h.2.symm, by rw [h.2]⟩
      | ok cfg => simp at h

/-- Claim C7 witness: a function with one unterminated block and a cached
CFG fails construction and keeps its cached CFG. -/
theorem construct_cfg_error_preserves_cache_witness :
    Func.constructCfg x64 { blocks := [[]], vregsCount := 0, cfg := some (CFG.new 0 1) }
      = some (.error (.blockNotTerminated 0),
          { blocks := [[]], vregsCount := 0, cfg := some (CFG.new 0 1) })
    ∧ ({ blocks := [[]], vregsCount := 0, cfg := some (CFG.new 0 1) } : Func X64Inst).cfg
      = some (CFG.new 0 1) := by
  have h : Func.constructCfg x64
      ({ blocks := [[]], vregsCount := 0, cfg := some (CFG.new 0 1) } : Func X64Inst)
      = some (.error (.blockNotTerminated 0),
          { blocks := [[]], vregsCount := 0, cfg := some (CFG.new 0 1) }) := rfl
  refine ⟨h, ?_⟩
  rw [(construct_cfg_error_preserves_cache x64 _ _ _ h).2]

/-- Claim C8: each mutating block operation (`add_block`,
`add_empty_block`, `get_block_data_mut`) clears the cached CFG, reading the
cache through `get_cfg` then panics (`none`), and only a successful
`construct_cfg` repopulates the cache. -/
theorem mutation_invalidates_cached_cfg {I : Type} (S : InstSet I) (f : Func I)
    (data : BlockData I) (b : Nat) :
    ((f.addBlock data).1.cfg = none ∧ (f.addBlock data).1.getCfg = none)
    ∧ (f.addEmptyBlock.1.cfg = none ∧ f.addEmptyBlock.1.getCfg = none)
    ∧ ((f.getBlockDataMut b).1.cfg = none ∧ (f.getBlockDataMut b).1.getCfg = none)
    ∧ (∀ f', f.constructCfg S = some (.ok (), f') → ∃ c, f'.cfg = some c) := by
  refine ⟨⟨rfl, rfl⟩, ⟨rfl, rfl⟩, ⟨rfl, rfl⟩, fun f' h => ?_⟩
  obtain ⟨c, hc, -⟩ := constructCfg_ok_char S h
  exact ⟨c, hc⟩

/-- Claim C8 witness: instantiation on the sample function with its cache
already populated. -/
theorem mutation_invalidates_cached_cfg_witness :
    ((sampleFuncBuilt.addBlock []).1.cfg = none
      ∧ (sampleFuncBuilt.addBlock []).1.getCfg = none)
    ∧ (sampleFuncBuilt.addEmptyBlock.1.cfg = none
      ∧ sampleFuncBuilt.addEmptyBlock.1.getCfg = none)
    ∧ ((sampleFuncBuilt.getBlockDataMut 0).1.cfg = none
      ∧ (sampleFuncBuilt.getBlockDataMut 0).1.getCfg = none)
    ∧ (∀ f', sampleFuncBuilt.constructCfg x64 = some (.ok (), f') → ∃ c, f'.cfg = some c) :=
  mutation_invalidates_cached_cfg x64 sampleFuncBuilt [] 0

/-- Claim C10: terminator lookup yields only the final instruction (and
only when it classifies as a terminator), and in a successfully constructed
CFG each block's successors are exactly the branch targets of that final
instruction — a branch that is not last contributes no edges. -/
theorem cfg_edges_from_terminator_only {I : Type} (S : InstSet I) (f f' : Func I)
    (h : f.constructCfg S = some (.ok (), f')) :
    (∀ (bd : BlockData I) (i : I),
      getTerminator S bd = some i ↔ (bd.getLast? = some i ∧ S.isTerm i = true))
    ∧ ∃ cfg, f'.cfg = some cfg ∧ ∀ b, b < f.blocks.length →
        cfg.succList b = termTargets S (f.getBlockData b) := by
  constructor
  · intro bd i
    cases hl : bd.getLast? with
    | none => simp [getTerminator, hl]
    | some j =>
      simp only [getTerminator, hl]
      by_cases hj : S.isTerm j = true
      · rw [if_pos hj]
        constructor
        · intro hh
          obtain rfl : j = i := Option.some_inj.mp hh
          exact ⟨rfl, hj⟩
        · exact fun hh => hh.1
      · rw [if_neg hj]
        constructor
        · intro hh
          exact absurd hh (by simp)
        · rintro ⟨hh1, hh2⟩
          obtain rfl : j = i := Option.some_inj.mp hh1
          exact absurd hh2 hj
  · obtain ⟨cfg, h1, -, -, -, -, -, hsucc⟩ := constructCfg_ok_char S h
    exact ⟨cfg, h1, fun b hb => by rw [hsucc b, if_pos hb]⟩

/-- Claim C10 witness: on the sample function the constructed successor
list of block 0 is exactly the target list of its final jump. -/
theorem cfg_edges_from_terminator_only_witness :
    ∃ cfg, sampleFuncBuilt.cfg = some cfg ∧ cfg.succList 0 = [1] := by
  obtain ⟨-, cfg, h1, h2⟩ :=
    cfg_edges_from_terminator_only x64 sampleFunc sampleFuncBuilt rfl
  refine ⟨cfg, h1, ?_⟩
  have : sampleCfg = cfg := Option.some_inj.mp h1
  subst this
  rfl

namespace Packed

/-- Register class of `tir/reg.rs`, width in bytes. -/
inductive RegClass where
  | Int (width : Nat)
  | Float (width : Nat)
  | Vec (width : Nat)
deriving DecidableEq, Repr

/-- Register type of `tir/reg.rs`. -/
inductive RegType where
  | Virtual
  | Physical
  | Spill
deriving DecidableEq, Repr

/-- Width carried by a register class. -/
def RegClass.width : RegClass → Nat
  | .Int w => w
  | .Float w => w
  | .Vec w => w

def VIRT_BIT : Nat := 1 <<< 31

def SPILL_BIT : Nat := 1 <<< 30

def REG_CLASS_INT_BIT : Nat := 1 <<< 29

def REG_CLASS_FLOAT_BIT : Nat := 1 <<< 28

def REG_CLASS_SIZE_BITS : Nat := 4

def REG_CLASS_SIZE_OFFSET : Nat := 28 - REG_CLASS_SIZE_BITS

def REG_CLASS_MASK : Nat := ((1 <<< REG_CLASS_SIZE_BITS) - 1) <<< REG_CLASS_SIZE_OFFSET

def ID_MASK : Nat := (1 <<< REG_CLASS_SIZE_OFFSET) - 1

/-- Count of one bits, iterated over the binary digits with structural
fuel (the first argument bounds the number of digits, `n` itself is always
enough). -/
def countOnesAux : Nat → Nat → Nat
  | 0, _ => 0
  | _ + 1, 0 => 0
  | fuel + 1, n + 1 => (n + 1) % 2 + countOnesAux fuel ((n + 1) / 2)

/-- Count of one bits (`count_ones`). -/
def countOnes (n : Nat) : Nat := countOnesAux n n

/-- Packed register of `tir/reg.rs`: a 32-bit representation embedded as a
natural number (every encoded value stays below 2^32). -/
structure Reg where
  repr : Nat
deriving DecidableEq, Repr

/-- Size field of the encoding (`Reg::get_size_mask`). -/
def getSizeMask (cls : RegClass) : Nat :=
  countOnes (cls.width - 1) <<< REG_CLASS_SIZE_OFFSET

/-- Class field of the encoding (`Reg::get_class_mask`). -/
def getClassMask : RegClass → Nat
  | .Int _ => REG_CLASS_INT_BIT
  | .Float _ => REG_CLASS_FLOAT_BIT
  | .Vec _ => 0

/-- Type field of the encoding (`Reg::get_type_mask`). -/
def getTypeMask : RegType → Nat
  | .Virtual => VIRT_BIT
  | .Physical => 0
  | .Spill => SPILL_BIT

/-- Constructor `Reg::new`. -/
def Reg.new (typ : RegType) (cls : RegClass) (id : Nat) : Reg :=
  ⟨id ||| getSizeMask cls ||| getClassMask cls ||| getTypeMask typ⟩

/-- Accessor `Reg::get_type`. -/
def Reg.getType (r : Reg) : RegType :=
  if r.repr &&& VIRT_BIT ≠ 0 then .Virtual
  else if r.repr &&& SPILL_BIT ≠ 0 then .Spill
  else .Physical

/-- Accessor `Reg::reg_class_size`. -/
def Reg.regClassSize (r : Reg) : Nat :=
  (r.repr &&& REG_CLASS_MASK) >>> REG_CLASS_SIZE_OFFSET

/-- Accessor `Reg::get_class`. -/
def Reg.getClass (r : Reg) : RegClass :=
  let size := 1 <<< r.regClassSize
  if r.repr &&& REG_CLASS_INT_BIT ≠ 0 then .Int size
  else if r.repr &&& REG_CLASS_FLOAT_BIT ≠ 0 then .Float size
  else .Vec size

/-- Accessor `Reg::get_id`. -/
def Reg.getId (r : Reg) : Nat :=
  r.repr &&& ID_MASK

theorem one_shiftLeft (n : Nat) : (1 : Nat) <<< n = 2 ^ n := by
  rw [Nat.shiftLeft_eq, one_mul]

theorem countOnes_two_pow_sub_one {k : Nat} (hk : k ≤ 7) :
    countOnes (2 ^ k - 1) = k := by
  interval_cases k <;> rfl

theorem extract_id {id k c : Nat} (hid : id < 2 ^ 24) (hk : k < 16)
    (hc : ∀ i, i < 28 → c.testBit i = false) :
    ((id ||| k <<< 24) ||| c) &&& (2 ^ 24 - 1) = id := by
  apply Nat.eq_of_testBit_eq
  intro i
  simp only [Nat.testBit_land, Nat.testBit_lor, Nat.testBit_two_pow_sub_one,
    Nat.testBit_shiftLeft]
  by_cases h : i < 24
  · rw [hc i (by omega)]
    have h2 : decide (24 ≤ i) = false := by simp; omega
    simp [h, h2]
  · have h1 : id.testBit i = false :=
      Nat.testBit_lt_two_pow
        (lt_of_lt_of_le hid (Nat.pow_le_pow_right (by norm_num) (by omega)))
    simp [h, h1]

theorem extract_size {id k c : Nat} (hid : id < 2 ^ 24) (hk : k < 16)
    (hc : ∀ i, i < 28 → c.testBit i = false) :
    (((id ||| k <<< 24) ||| c) &&& (15 <<< 24)) >>> 24 = k := by
  apply Nat.eq_of_testBit_eq
  intro i
  rw [Nat.testBit_shiftRight]
  simp only [Nat.testBit_land, Nat.testBit_lor, Nat.testBit_shiftLeft,
    Nat.add_sub_cancel_left]
  have hid' : id.testBit (24 + i) = false :=
    Nat.testBit_lt_two_pow
      (lt_of_lt_of_le hid (Nat.pow_le_pow_right (by norm_num) (by omega)))
  by_cases h : i < 4
  · have hc' : c.testBit (24 + i) = false := hc _ (by omega)
    have h15 : Nat.testBit 15 i = true := by
      rw [show (15 : Nat) = 2 ^ 4 - 1 by norm_num, Nat.testBit_two_pow_sub_one]
      simpa using h
    simp [hid', hc', h15]
  · have h15 : Nat.testBit 15 i = false := by
      rw [show (15 : Nat) = 2 ^ 4 - 1 by norm_num, Nat.testBit_two_pow_sub_one]
      simpa using h
    have hk' : k.testBit i = false :=
      Nat.testBit_lt_two_pow
        (lt_of_lt_of_le hk (by
          have h16 : (16 : Nat) = 2 ^ 4 := by norm_num
          rw [h16]
          exact Nat.pow_le_pow_right (by norm_num) (by omega)))
    simp [h15, hk']

theorem extract_testBit_high {id k c : Nat} (hid : id < 2 ^ 24) (hk : k < 16)
    {n : Nat} (hn : 28 ≤ n) :
    ((id ||| k <<< 24) ||| c).testBit n = c.testBit n := by
  simp only [Nat.testBit_lor, Nat.testBit_shiftLeft]
  have h1 : id.testBit n = false :=
    Nat.testBit_lt_two_pow
      (lt_of_lt_of_le hid (Nat.pow_le_pow_right (by norm_num) (by omega)))
  have h2 : k.testBit (n - 24) = false :=
    Nat.testBit_lt_two_pow
      (lt_of_lt_of_le hk (by
        have : (16 : Nat) = 2 ^ 4 := by norm_num
        rw [this]
        exact Nat.pow_le_pow_right (by norm_num) (by omega)))
  simp [h1, h2]

theorem and_pow_ne_zero_iff (x n : Nat) : (x &&& 2 ^ n ≠ 0) ↔ x.testBit n = true := by
  rw [Nat.and_two_pow]
  cases h : x.testBit n <;> simp [h]

theorem classTypeMask_low (cls : RegClass) (typ : RegType) :
    ∀ i, i < 28 → (getClassMask cls ||| getTypeMask typ).testBit i = false := by
  intro i hi
  cases cls <;> cases typ <;>
    simp only [getClassMask, getTypeMask, VIRT_BIT, SPILL_BIT, REG_CLASS_INT_BIT,
      REG_CLASS_FLOAT_BIT, one_shiftLeft, Nat.testBit_lor, Nat.testBit_two_pow,
      Nat.zero_testBit, Bool.or_false, Bool.false_or, decide_eq_false_iff_not] <;>
    try omega
  all_goals
    simp only [Bool.or_eq_false_iff, decide_eq_false_iff_not]
    omega

theorem repr_and_bit {id k c : Nat} (hid : id < 2 ^ 24) (hk : k < 16) {n : Nat}
    (hn : 28 ≤ n) :
    (((id ||| k <<< 24) ||| c) &&& (1 <<< n) ≠ 0) ↔ c.testBit n = true := by
  rw [one_shiftLeft, and_pow_ne_zero_iff, extract_testBit_high hid hk hn]

theorem classMask_testBit_high (cls : RegClass) {n : Nat} (hn : 30 ≤ n) :
    (getClassMask cls).testBit n = false := by
  cases cls
  · simp only [getClassMask, REG_CLASS_INT_BIT, one_shiftLeft, Nat.testBit_two_pow,
      decide_eq_false_iff_not]
    omega
  · simp only [getClassMask, REG_CLASS_FLOAT_BIT, one_shiftLeft, Nat.testBit_two_pow,
      decide_eq_false_iff_not]
    omega
  · simp [getClassMask]

theorem typeMask_testBit_mid (typ : RegType) {n : Nat} (hn1 : 28 ≤ n) (hn2 : n ≤ 29) :
    (getTypeMask typ).testBit n = false := by
  cases typ
  · simp only [getTypeMask, VIRT_BIT, one_shiftLeft, Nat.testBit_two_pow,
      decide_eq_false_iff_not]
    omega
  · simp [getTypeMask]
  · simp only [getTypeMask, SPILL_BIT, one_shiftLeft, Nat.testBit_two_pow,
      decide_eq_false_iff_not]
    omega

/-- Claim C9: for every register type, every register class whose width is
a power of two between 1 and 128 bytes, and every id below 2^24 (the id
field), the packed encoding round-trips: `get_type`, `get_class` and
`get_id` of `Reg::new(typ, cls, id)` recover exactly `typ`, `cls` and
`id`. -/
theorem packed_reg_roundtrip (typ : RegType) (cls : RegClass) (id : Nat)
    (hid : id < 2 ^ 24) (hw : ∃ k, k ≤ 7 ∧ cls.width = 2 ^ k) :
    (Reg.new typ cls id).getType = typ
    ∧ (Reg.new typ cls id).getClass = cls
    ∧ (Reg.new typ cls id).getId = id := by
  obtain ⟨k, hk7, hwid⟩ := hw
  have hk : k < 16 := by omega
  have hsz : getSizeMask cls = k <<< 24 := by
    unfold getSizeMask
    rw [hwid, countOnes_two_pow_sub_one hk7]
    rfl
  have hrepr : (Reg.new typ cls id).repr
      = (id ||| k <<< 24) ||| (getClassMask cls ||| getTypeMask typ) := by
    show id ||| getSizeMask cls ||| getClassMask cls ||| getTypeMask typ = _
    rw [hsz, Nat.lor_assoc]
  have hlow := classTypeMask_low cls typ
  have h31 : (((id ||| k <<< 24) ||| (getClassMask cls ||| getTypeMask typ)) &&& VIRT_BIT ≠ 0)
      ↔ (getClassMask cls ||| getTypeMask typ).testBit 31 = true := by
    rw [show VIRT_BIT = 1 <<< 31 from rfl]
    exact repr_and_bit hid hk (by omega)
  have h30 : (((id ||| k <<< 24) ||| (getClassMask cls ||| getTypeMask typ)) &&& SPILL_BIT ≠ 0)
      ↔ (getClassMask cls ||| getTypeMask typ).testBit 30 = true := by
    rw [show SPILL_BIT = 1 <<< 30 from rfl]
    exact repr_and_bit hid hk (by omega)
  have h29 : (((id ||| k <<< 24) ||| (getClassMask cls ||| getTypeMask typ))
        &&& REG_CLASS_INT_BIT ≠ 0)
      ↔ (getClassMask cls ||| getTypeMask typ).testBit 29 = true := by
    rw [show REG_CLASS_INT_BIT = 1 <<< 29 from rfl]
    exact repr_and_bit hid hk (by omega)
  have h28 : (((id ||| k <<< 24) ||| (getClassMask cls ||| getTypeMask typ))
        &&& REG_CLASS_FLOAT_BIT ≠ 0)
      ↔ (getClassMask cls ||| getTypeMask typ).testBit 28 = true := by
    rw [show REG_CLASS_FLOAT_BIT = 1 <<< 28 from rfl]
    exact repr_and_bit hid hk (by omega)
  have hcm31 : (getClassMask cls).testBit 31 = false := classMask_testBit_high cls (by omega)
  have hcm30 : (getClassMask cls).testBit 30 = false := classMask_testBit_high cls (by omega)
  have htm29 : (getTypeMask typ).testBit 29 = false := typeMask_testBit_mid typ (by omega) (by omega)
  have htm28 : (getTypeMask typ).testBit 28 = false := typeMask_testBit_mid typ (by omega) (by omega)
  have hsizeval : (Reg.new typ cls id).regClassSize = k := by
    unfold Reg.regClassSize
    rw [hrepr, show REG_CLASS_MASK = 15 <<< 24 from rfl,
      show REG_CLASS_SIZE_OFFSET = 24 from rfl]
    exact extract_size hid hk hlow
  refine ⟨?_, ?_, ?_⟩
  · unfold Reg.getType
    rw [hrepr]
    cases typ with
    | Virtual =>
      rw [if_pos (h31.mpr (by
        simp only [Nat.testBit_lor, hcm31, Bool.false_or]
        decide))]
    | Physical =>
      rw [if_neg (by
          rw [h31]
          simp only [Nat.testBit_lor, hcm31, Bool.false_or]
          decide),
        if_neg (by
          rw [h30]
          simp only [Nat.testBit_lor, hcm30, Bool.false_or]
          decide)]
    | Spill =>
      rw [if_neg (by
          rw [h31]
          simp only [Nat.testBit_lor, hcm31, Bool.false_or]
          decide),
        if_pos (h30.mpr (by
          simp only [Nat.testBit_lor, hcm30, Bool.false_or]
          decide))]
  · have hshift : (1 : Nat) <<< (Reg.new typ cls id).regClassSize = cls.width := by
      rw [hsizeval, one_shiftLeft, ← hwid]
    simp only [Reg.getClass]
    rw [hrepr, hshift]
    cases cls with
    | Int w =>
      rw [if_pos (h29.mpr (by
        simp only [Nat.testBit_lor, htm29, Bool.or_false, getClassMask]
        decide))]
      simp [RegClass.width]
    | Float w =>
      rw [if_neg (by
          rw [h29]
          simp only [Nat.testBit_lor, htm29, Bool.or_false, getClassMask]
          decide),
        if_pos (h28.mpr (by
          simp only [Nat.testBit_lor, htm28, Bool.or_false, getClassMask]
          decide))]
      simp [RegClass.width]
    | Vec w =>
      rw [if_neg (by
          rw [h29]
          simp only [Nat.testBit_lor, htm29, Bool.or_false, getClassMask]
          decide),
        if_neg (by
          rw [h28]
          simp only [Nat.testBit_lor, htm28, Bool.or_false, getClassMask]
          decide)]
      simp [RegClass.width]
  · unfold Reg.getId
    rw [hrepr, show ID_MASK = 2 ^ 24 - 1 from rfl]
    exact extract_id hid hk hlow

/-- Claim C9 witness: the round-trip at the repository's own test case
(virtual, 4-byte integer class, id 48). -/
theorem packed_reg_roundtrip_witness :
    (Reg.new RegType.Virtual (RegClass.Int 4) 48).getType = RegType.Virtual
    ∧ (Reg.new RegType.Virtual (RegClass.Int 4) 48).getClass = RegClass.Int 4
    ∧ (Reg.new RegType.Virtual (RegClass.Int 4) 48).getId = 48 :=
  packed_reg_roundtrip RegType.Virtual (RegClass.Int 4) 48 (by norm_num)
    ⟨2, by norm_num, rfl⟩

end Packed

/-- Allocation outcome of `regalloc.rs` (`AllocatedSlot`). -/
inductive AllocatedSlot where
  | Reg (reg : Nat)
  | Stack (slot : Nat)
deriving DecidableEq, Repr

/-- Per-range allocation record of `regalloc.rs` (`RegAllocResult`). -/
structure RegAllocResult where
  range : LiveRange
  allocatedSlot : AllocatedSlot
deriving DecidableEq, Repr

/-- Overlap of two live ranges in program-point space: they share a common
program point (for well-formed ranges with `start ≤ stop` this is the usual
interval-intersection condition). -/
def rangesOverlap (r1 r2 : LiveRange) : Prop :=
  r1.start ≤ r2.stop ∧ r2.start ≤ r1.stop

instance (r1 r2 : LiveRange) : Decidable (rangesOverlap r1 r2) := by
  unfold rangesOverlap; infer_instance

/-- Ordered insertion into the expiry set, modelling
`BTreeSet<(ProgramPoint, Reg)>::insert` (set semantics, ascending
lexicographic order, `first` is the head). -/
def btreeInsert (x : ProgramPoint × Nat) :
    List (ProgramPoint × Nat) → List (ProgramPoint × Nat)
  | [] => [x]
  | y :: ys =>
    if x = y then y :: ys
    else if x.1 < y.1 ∨ (x.1 = y.1 ∧ x.2 < y.2) then x :: y :: ys
    else y :: btreeInsert x ys

/-- Expiry sweep `RegAlloc::expire`: while the smallest recorded pair ends
strictly before `p`, delete its register from the active set and pop it. -/
def expire (p : ProgramPoint) :
    List (ProgramPoint × Nat) → Finset Nat → List (ProgramPoint × Nat) × Finset Nat
  | [], active => ([], active)
  | (e, r) :: rest, active =>
    if e < p then expire p rest (active.erase r)
    else ((e, r) :: rest, active)

/-- Candidate scan `RegAlloc::lookup_available_reg`: walk the inactive
physical registers in ascending order (`iter_zeroes` of a copy of
`active`); a candidate whose recorded live ranges (the liveness analysis's
ranges for that physical register) cover `cur` is marked active with an
expiry at `cur` and skipped; the first unreserved candidate is returned —
without being marked active. -/
def lookupAvailableReg (lrf : Nat → List LiveRange) (cur : ProgramPoint) :
    List Nat → Finset Nat → List (ProgramPoint × Nat) →
      Option Nat × Finset Nat × List (ProgramPoint × Nat)
  | [], active, er => (none, active, er)
  | r :: rs, active, er =>
    if (lrf r).any (fun range => decide (range.start ≤ cur) && decide (cur ≤ range.stop)) then
      lookupAvailableReg lrf cur rs (insert r active) (btreeInsert (cur, r) er)
    else
      (some r, active, er)

/-- Main loop of `RegAlloc::run`, processing the input live ranges in
order and threading the allocator state (`active`, `expire_range`,
`stack_slots`). -/
def runAux (lrf : Nat → List LiveRange) (pregCount : Nat) :
    List LiveRange → Finset Nat → List (ProgramPoint × Nat) → Nat → List RegAllocResult
  | [], _, _, _ => []
  | lr :: rest, active, er, slots =>
    let st1 := expire lr.start er active
    let candidates := (List.range pregCount).filter (fun r => decide (r ∉ st1.2))
    match lookupAvailableReg lrf lr.start candidates st1.2 st1.1 with
    | (some r, active2, er2) =>
      ⟨lr, .Reg r⟩ :: runAux lrf pregCount rest active2 er2 slots
    | (none, active2, er2) =>
      ⟨lr, .Stack slots⟩ :: runAux lrf pregCount rest active2 er2 (slots + 1)

/-- Entry point `RegAlloc::run` over a given list of (virtual-register)
live ranges.  `lrf` is the liveness analysis's per-register range lookup
(`get_live_ranges_for`, absent from the `liveness.rs` snapshot; modelled
from the spec: the stored merged ranges of that register).  The
`iter_zeroes` scan is modelled from the spec as the unset positions below
the bit-set's constructed universe size `preg_count()`, ascending. -/
def RegAlloc.run (lrf : Nat → List LiveRange) (pregCount : Nat)
    (liveRanges : List LiveRange) : List RegAllocResult :=
  runAux lrf pregCount liveRanges ∅ [] 0

/-- Claim C1: the allocation of overlapping live ranges.  The claim is
violated by the code: `lookup_available_reg` returns the chosen register
without ever marking it active or recording an expiry for it, so with no
reserved physical ranges the two overlapping virtual ranges v0 and v1 both
receive physical register 0 (RAX). -/
theorem regalloc_overlapping_ranges_share_rax :
    RegAlloc.run (fun _ => []) 16
        [⟨16, ⟨0, 0⟩, ⟨0, 1⟩⟩, ⟨17, ⟨0, 0⟩, ⟨0, 1⟩⟩]
      = [⟨⟨16, ⟨0, 0⟩, ⟨0, 1⟩⟩, .Reg 0⟩, ⟨⟨17, ⟨0, 0⟩, ⟨0, 1⟩⟩, .Reg 0⟩]
    ∧ rangesOverlap ⟨16, ⟨0, 0⟩, ⟨0, 1⟩⟩ ⟨17, ⟨0, 0⟩, ⟨0, 1⟩⟩ := by
  constructor
  · rfl
  · constructor
    · rw [ProgramPoint.le_iff]
      simp
    · rw [ProgramPoint.le_iff]
      simp

/-- Depth-first traversal shared by
`LivenessAnalysis::compute_reverse_postorder` and
`DomTree::compute_postorder`: an explicit stack (head of the list is the
top), a visited set, and the visitation order in the order vector (the
traversal records blocks in pre-order; the source stores this vector under
the name `postorder`/`reverse_postorder`).  Successors are pushed in list
order, so the last one is popped first.  Fuelled: the source loop always
terminates, the fuel merely bounds the iteration count. -/
def dfsAux (succs : Nat → List Nat) :
    Nat → List Nat → Finset Nat → List Nat → Option (List Nat)
  | 0, _, _, _ => none
  | _ + 1, [], _, order => some order
  | fuel + 1, b :: stack, visited, order =>
    if b ∈ visited then dfsAux succs fuel stack visited order
    else
      dfsAux succs fuel
        (((succs b).filter (fun s => decide (s ∉ insert b visited))).reverse ++ stack)
        (insert b visited) (order ++ [b])

/-- Seed traversal of `LivenessAnalysis::compute_reverse_postorder`: starts
from `func.get_entry_block().unwrap()` (a panic on an empty function). -/
def computeReversePostorder {I : Type} (f : Func I) (cfg : CFG) (fuel : Nat) :
    Option (List Nat) :=
  match f.getEntryBlock with
  | none => none
  | some entry => dfsAux cfg.succList fuel [entry] ∅ []

/-- Local pass of `LivenessAnalysis::init_block`: a used register enters
the block's `uses` only when not already defined earlier in the block; every
defined register enters `defs`. -/
def initBlock {I : Type} (S : InstSet I) (insts : List I) : Finset Nat × Finset Nat :=
  insts.foldl
    (fun (acc : Finset Nat × Finset Nat) inst =>
      let u := (S.getUses inst).foldl
        (fun u r => if r ∈ acc.2 then u else insert r u) acc.1
      let d := (S.getDefs inst).foldl (fun d r => insert r d) acc.2
      (u, d))
    (∅, ∅)

/-- The block's upward-exposed uses. -/
def blockUses {I : Type} (S : InstSet I) (f : Func I) (b : Nat) : Finset Nat :=
  (initBlock S (f.getBlockData b)).1

/-- The block's defined registers. -/
def blockDefs {I : Type} (S : InstSet I) (f : Func I) (b : Nat) : Finset Nat :=
  (initBlock S (f.getBlockData b)).2

/-- The live-in/live-out state of the dataflow pass (`FixedBitSet`s per
block, embedded as finite sets indexed by block). -/
structure LiveSets where
  lin : Nat → Finset Nat
  lout : Nat → Finset Nat

/-- Union of `live_in` over the successors of a block, accumulated from the
seed `l0` (matching the in-place `live_out.union(&live_in[s])` loop). -/
def succUnion (cfg : CFG) (lin : Nat → Finset Nat) (l0 : Finset Nat) (b : Nat) :
    Finset Nat :=
  (cfg.succList b).foldl (fun acc s => acc ∪ lin s) l0

/-- Worklist loop of `LivenessAnalysis::construct`: the head of `wl` is the
top of the stack (`SmallVec::pop` takes the back); `extend_from_slice` of
the predecessors therefore prepends their reverse.  If the block's set
cardinalities changed, the predecessors are re-enqueued. -/
def constructLoop (uses defs : Nat → Finset Nat) (cfg : CFG) :
    Nat → List Nat → LiveSets → Option LiveSets
  | 0, _, _ => none
  | _ + 1, [], sets => some sets
  | fuel + 1, b :: wl, sets =>
    let inCount := (sets.lin b).card
    let outCount := (sets.lout b).card
    let newOut := succUnion cfg sets.lin (sets.lout b) b
    let newIn := ((sets.lin b ∪ newOut) \ defs b) ∪ uses b
    let wl' := if newIn.card ≠ inCount ∨ newOut.card ≠ outCount
      then (cfg.predList b).reverse ++ wl else wl
    constructLoop uses defs cfg fuel wl'
      ⟨Function.update sets.lin b newIn, Function.update sets.lout b newOut⟩

/-- Global pass `LivenessAnalysis::construct`: seed the worklist with the
traversal order (popped from the back) and run the fixed-point loop after
initializing every block's `uses`/`defs`. -/
def livenessConstruct {I : Type} (S : InstSet I) (f : Func I) (cfg : CFG)
    (fuel : Nat) : Option LiveSets :=
  match computeReversePostorder f cfg fuel with
  | none => none
  | some rpo =>
    constructLoop (blockUses S f) (blockDefs S f) cfg fuel rpo.reverse
      ⟨fun _ => ∅, fun _ => ∅⟩

/-- Reachability along successor edges, from the entry. -/
inductive Reachable (succs : Nat → List Nat) (entry : Nat) : Nat → Prop where
  | refl : Reachable succs entry entry
  | step {a b : Nat} : Reachable succs entry a → b ∈ succs a → Reachable succs entry b

theorem mem_foldl_union {g : Nat → Finset Nat} :
    ∀ {L : List Nat} {l0 : Finset Nat} {x : Nat},
    (x ∈ L.foldl (fun acc s => acc ∪ g s) l0) ↔ (x ∈ l0 ∨ ∃ s ∈ L, x ∈ g s) := by
  intro L
  induction L with
  | nil => intro l0 x; simp
  | cons s L ih =>
    intro l0 x
    rw [List.foldl_cons, ih]
    simp only [Finset.mem_union, List.mem_cons]
    constructor
    · rintro (⟨h | h⟩ | ⟨t, ht, hx⟩)
      · exact Or.inl h
      · exact Or.inr ⟨s, Or.inl rfl, h⟩
      · exact Or.inr ⟨t, Or.inr ht, hx⟩
    · rintro (h | ⟨t, (rfl | ht), hx⟩)
      · exact Or.inl (Or.inl h)
      · exact Or.inl (Or.inr hx)
      · exact Or.inr ⟨t, ht, hx⟩

theorem mem_succUnion {cfg : CFG} {lin : Nat → Finset Nat} {l0 : Finset Nat}
    {b x : Nat} :
    x ∈ succUnion cfg lin l0 b ↔ (x ∈ l0 ∨ ∃ s ∈ cfg.succList b, x ∈ lin s) :=
  mem_foldl_union

theorem succUnion_congr {cfg : CFG} {lin lin' : Nat → Finset Nat} {b : Nat}
    (h : ∀ s ∈ cfg.succList b, lin s = lin' s) :
    succUnion cfg lin ∅ b = succUnion cfg lin' ∅ b := by
  ext x
  rw [mem_succUnion, mem_succUnion]
  constructor
  · rintro (h0 | ⟨s, hs, hx⟩)
    · simp at h0
    · exact Or.inr ⟨s, hs, (h s hs) ▸ hx⟩
  · rintro (h0 | ⟨s, hs, hx⟩)
    · simp at h0
    · exact Or.inr ⟨s, hs, (h s hs) ▸ hx⟩

theorem succUnion_mono {cfg : CFG} {lin lin' : Nat → Finset Nat} {b : Nat}
    (h : ∀ s, lin s ⊆ lin' s) :
    succUnion cfg lin ∅ b ⊆ succUnion cfg lin' ∅ b := by
  intro x hx
  rw [mem_succUnion] at hx ⊢
  rcases hx with h0 | ⟨s, hs, hx⟩
  · exact Or.inl h0
  · exact Or.inr ⟨s, hs, h s hx⟩

theorem succUnion_seed {cfg : CFG} {lin : Nat → Finset Nat} {l0 : Finset Nat} {b : Nat} :
    succUnion cfg lin l0 b = l0 ∪ succUnion cfg lin ∅ b := by
  ext x
  rw [mem_succUnion, Finset.mem_union, mem_succUnion]
  constructor
  · rintro (h | h)
    · exact Or.inl h
    · exact Or.inr (Or.inr h)
  · rintro (h | (h | h))
    · exact Or.inl h
    · simp at h
    · exact Or.inr h

/-- Completeness of the DFS seed traversal: any run that terminates
starting from a stack, a visited set equal to the recorded order, and a
closure invariant, records every stacked block and is closed under
successors. -/
theorem dfsAux_spec (succs : Nat → List Nat) :
    ∀ (fuel : Nat) (stack : List Nat) (visited : Finset Nat) (order res : List Nat),
    dfsAux succs fuel stack visited order = some res →
    (∀ x, x ∈ visited ↔ x ∈ order) →
    (∀ a ∈ order, ∀ s ∈ succs a, s ∈ visited ∨ s ∈ stack) →
    (∀ x ∈ order, x ∈ res) ∧ (∀ x ∈ stack, x ∈ res)
      ∧ (∀ a ∈ res, ∀ s ∈ succs a, s ∈ res) := by
  intro fuel
  induction fuel with
  | zero => intro stack visited order res h; simp [dfsAux] at h
  | succ fuel ih =>
    intro stack visited order res h hv hclosed
    cases stack with
    | nil =>
      have hres : order = res := by simpa [dfsAux] using h
      subst hres
      refine ⟨fun x hx => hx, by simp, ?_⟩
      intro a ha s hs
      rcases hclosed a ha s hs with h1 | h1
      · exact (hv s).mp h1
      · simp at h1
    | cons b stack' =>
      rw [dfsAux] at h
      by_cases hb : b ∈ visited
      · rw [if_pos hb] at h
        have hclosed' : ∀ a ∈ order, ∀ s ∈ succs a, s ∈ visited ∨ s ∈ stack' := by
          intro a ha s hs
          rcases hclosed a ha s hs with h1 | h1
          · exact Or.inl h1
          · rcases List.mem_cons.mp h1 with rfl | h2
            · exact Or.inl hb
            · exact Or.inr h2
        obtain ⟨r1, r2, r3⟩ := ih stack' visited order res h hv hclosed'
        exact ⟨r1, fun x hx => by
          rcases List.mem_cons.mp hx with rfl | h2
          · exact r1 x ((hv x).mp hb)
          · exact r2 x h2, r3⟩
      · rw [if_neg hb] at h
        have hv' : ∀ x, x ∈ insert b visited ↔ x ∈ order ++ [b] := by
          intro x
          rw [Finset.mem_insert, List.mem_append, List.mem_singleton, hv x]
          tauto
        have hclosed' : ∀ a ∈ order ++ [b], ∀ s ∈ succs a,
            s ∈ insert b visited
              ∨ s ∈ ((succs b).filter (fun s => decide (s ∉ insert b visited))).reverse
                  ++ stack' := by
          intro a ha s hs
          rcases List.mem_append.mp ha with ha | ha
          · rcases hclosed a ha s hs with h1 | h1
            · exact Or.inl (Finset.mem_insert_of_mem h1)
            · rcases List.mem_cons.mp h1 with rfl | h2
              · exact Or.inl (Finset.mem_insert_self _ _)
              · exact Or.inr (List.mem_append.mpr (Or.inr h2))
          · rw [List.mem_singleton] at ha
            subst ha
            by_cases hsv : s ∈ insert a visited
            · exact Or.inl hsv
            · refine Or.inr (List.mem_append.mpr (Or.inl ?_))
              rw [List.mem_reverse, List.mem_filter]
              exact ⟨hs, by simpa using hsv⟩
        obtain ⟨r1, r2, r3⟩ := ih _ _ _ res h hv' hclosed'
        refine ⟨fun x hx => r1 x (List.mem_append.mpr (Or.inl hx)), ?_, r3⟩
        intro x hx
        rcases List.mem_cons.mp hx with rfl | h2
        · exact r1 x (List.mem_append.mpr (Or.inr (List.mem_singleton.mpr rfl)))
        · exact r2 x (List.mem_append.mpr (Or.inr h2))

/-- Every block reachable from the entry is recorded by the traversal. -/
theorem dfs_complete {succs : Nat → List Nat} {entry : Nat} {fuel : Nat}
    {res : List Nat} (h : dfsAux succs fuel [entry] ∅ [] = some res) :
    ∀ b, Reachable succs entry b → b ∈ res := by
  obtain ⟨-, r2, r3⟩ := dfsAux_spec succs fuel [entry] ∅ [] res h
    (by simp) (by simp)
  intro b hb
  induction hb with
  | refl => exact r2 entry (List.mem_singleton.mpr rfl)
  | step ha hs ihr => exact r3 _ ihr _ hs

/-- Fixed-point equations of the dataflow pass at a block. -/
def LiveDone (cfg : CFG) (uses defs : Nat → Finset Nat) (sets : LiveSets) (b : Nat) :
    Prop :=
  sets.lout b = succUnion cfg sets.lin ∅ b
    ∧ sets.lin b = (sets.lout b \ defs b) ∪ uses b

/-- Invariant of the worklist loop: whenever it terminates, every block of
the tracked set `R` that is on the worklist or already satisfies the
equations still satisfies them in the final state.  The two subset
invariants make the per-block update exact and monotone. -/
theorem constructLoop_spec (uses defs : Nat → Finset Nat) (cfg : CFG)
    (hsym : ∀ q b, b ∈ cfg.succList q ↔ q ∈ cfg.predList b) :
    ∀ (fuel : Nat) (wl : List Nat) (sets : LiveSets) (R : Nat → Prop) (out : LiveSets),
    (∀ b, sets.lin b ⊆ (sets.lout b \ defs b) ∪ uses b) →
    (∀ b, sets.lout b ⊆ succUnion cfg sets.lin ∅ b) →
    (∀ b, R b → b ∈ wl ∨ LiveDone cfg uses defs sets b) →
    constructLoop uses defs cfg fuel wl sets = some out →
    ∀ b, R b → LiveDone cfg uses defs out b := by
  intro fuel
  induction fuel with
  | zero => intro wl sets R out _ _ _ h; simp [constructLoop] at h
  | succ fuel ih =>
    intro wl sets R out hI1 hI2 hI3 h
    cases wl with
    | nil =>
      have hout : sets = out := by simpa [constructLoop] using h
      subst hout
      intro b hb
      rcases hI3 b hb with h1 | h1
      · simp at h1
      · exact h1
    | cons b rest =>
      rw [constructLoop] at h
      set U := succUnion cfg sets.lin ∅ b with hU
      have hseed : succUnion cfg sets.lin (sets.lout b) b = sets.lout b ∪ U :=
        succUnion_seed
      have houtU : succUnion cfg sets.lin (sets.lout b) b = U := by
        rw [hseed]
        exact Finset.union_eq_right.mpr (hI2 b)
      set newOut := succUnion cfg sets.lin (sets.lout b) b with hNewOut
      set newIn := ((sets.lin b ∪ newOut) \ defs b) ∪ uses b with hNewIn
      have hlinU : sets.lin b ⊆ (U \ defs b) ∪ uses b := by
        intro x hx
        rcases Finset.mem_union.mp (hI1 b hx) with h1 | h1
        · rcases Finset.mem_sdiff.mp h1 with ⟨h2, h3⟩
          exact Finset.mem_union.mpr (Or.inl (Finset.mem_sdiff.mpr ⟨hI2 b h2, h3⟩))
        · exact Finset.mem_union.mpr (Or.inr h1)
      have hInEq : newIn = (newOut \ defs b) ∪ uses b := by
        rw [hNewIn, houtU]
        apply Finset.Subset.antisymm
        · intro x hx
          rcases Finset.mem_union.mp hx with h1 | h1
          · rcases Finset.mem_sdiff.mp h1 with ⟨h2, h3⟩
            rcases Finset.mem_union.mp h2 with h4 | h4
            · rcases Finset.mem_union.mp (hlinU h4) with h5 | h5
              · exact Finset.mem_union.mpr (Or.inl h5)
              · exact Finset.mem_union.mpr (Or.inr h5)
            · exact Finset.mem_union.mpr (Or.inl (Finset.mem_sdiff.mpr ⟨h4, h3⟩))
          · exact Finset.mem_union.mpr (Or.inr h1)
        · intro x hx
          rcases Finset.mem_union.mp hx with h1 | h1
          · rcases Finset.mem_sdiff.mp h1 with ⟨h2, h3⟩
            refine Finset.mem_union.mpr (Or.inl (Finset.mem_sdiff.mpr ⟨?_, h3⟩))
            exact Finset.mem_union.mpr (Or.inr h2)
          · exact Finset.mem_union.mpr (Or.inr h1)
      have hInMono : sets.lin b ⊆ newIn := by
        intro x hx
        rw [hInEq, houtU]
        exact hlinU hx
      have hOutMono : sets.lout b ⊆ newOut := by
        rw [hseed]
        exact Finset.subset_union_left
      set sets' : LiveSets :=
        ⟨Function.update sets.lin b newIn, Function.update sets.lout b newOut⟩
        with hsets'
      have hlin' : ∀ q, sets'.lin q = if q = b then newIn else sets.lin q := by
        intro q
        by_cases hq : q = b
        · subst hq; simp [hsets', Function.update]
        · simp [hsets', Function.update, hq]
      have hlout' : ∀ q, sets'.lout q = if q = b then newOut else sets.lout q := by
        intro q
        by_cases hq : q = b
        · subst hq; simp [hsets', Function.update]
        · simp [hsets', Function.update, hq]
      have hlinMono : ∀ q, sets.lin q ⊆ sets'.lin q := by
        intro q
        rw [hlin' q]
        by_cases hq : q = b
        · subst hq; rw [if_pos rfl]; exact hInMono
        · rw [if_neg hq]
      have hI1' : ∀ q, sets'.lin q ⊆ (sets'.lout q \ defs q) ∪ uses q := by
        intro q
        rw [hlin' q, hlout' q]
        by_cases hq : q = b
        · subst hq
          rw [if_pos rfl, if_pos rfl, hInEq]
        · rw [if_neg hq, if_neg hq]
          exact hI1 q
      have hI2' : ∀ q, sets'.lout q ⊆ succUnion cfg sets'.lin ∅ q := by
        intro q
        rw [hlout' q]
        by_cases hq : q = b
        · subst hq
          rw [if_pos rfl, houtU, hU]
          exact succUnion_mono hlinMono
        · rw [if_neg hq]
          exact (hI2 q).trans (succUnion_mono hlinMono)
      by_cases hch : newIn.card ≠ (sets.lin b).card ∨ newOut.card ≠ (sets.lout b).card
      · rw [if_pos hch] at h
        have hI3' : ∀ q, R q →
            q ∈ (cfg.predList b).reverse ++ rest ∨ LiveDone cfg uses defs sets' q := by
          intro q hq
          by_cases hqb : q = b
          · subst hqb
            by_cases hself : q ∈ cfg.succList q
            · left
              rw [List.mem_append, List.mem_reverse]
              exact Or.inl ((hsym q q).mp hself)
            · right
              constructor
              · rw [hlout' q, if_pos rfl, houtU, hU]
                apply succUnion_congr
                intro s hs
                rw [hlin' s, if_neg (fun (hsq : s = q) => hself (hsq ▸ hs))]
              · rw [hlin' q, hlout' q, if_pos rfl, if_pos rfl, hInEq]
          · rcases hI3 q hq with h1 | h1
            · rcases List.mem_cons.mp h1 with rfl | h2
              · exact absurd rfl hqb
              · exact Or.inl (List.mem_append.mpr (Or.inr h2))
            · by_cases hqsucc : b ∈ cfg.succList q
              · left
                rw [List.mem_append, List.mem_reverse]
                exact Or.inl ((hsym q b).mp hqsucc)
              · right
                constructor
                · rw [hlout' q, if_neg hqb, h1.1]
                  apply succUnion_congr
                  intro s hs
                  rw [hlin' s, if_neg (fun (hsb : s = b) => hqsucc (hsb ▸ hs))]
                · rw [hlin' q, hlout' q, if_neg hqb, if_neg hqb]
                  exact h1.2
        exact ih _ sets' R out hI1' hI2' hI3' h
      · rw [if_neg hch] at h
        push_neg at hch
        have hInSame : newIn = sets.lin b :=
          (Finset.eq_of_subset_of_card_le hInMono (le_of_eq hch.1)).symm
        have hOutSame : newOut = sets.lout b :=
          (Finset.eq_of_subset_of_card_le hOutMono (le_of_eq hch.2)).symm
        have hlinid : sets'.lin = sets.lin := by
          funext q
          rw [hlin' q]
          by_cases hq : q = b
          · subst hq; rw [if_pos rfl, hInSame]
          · rw [if_neg hq]
        have hloutid : sets'.lout = sets.lout := by
          funext q
          rw [hlout' q]
          by_cases hq : q = b
          · subst hq; rw [if_pos rfl, hOutSame]
          · rw [if_neg hq]
        have hsetsid : sets' = sets := by
          rw [show sets' = LiveSets.mk sets'.lin sets'.lout from rfl, hlinid, hloutid]
        rw [hsetsid] at h
        have hI3' : ∀ q, R q → q ∈ rest ∨ LiveDone cfg uses defs sets q := by
          intro q hq
          by_cases hqb : q = b
          · subst hqb
            right
            constructor
            · rw [← hOutSame, houtU, hU]
            · rw [← hInSame, hInEq, hOutSame]
          · rcases hI3 q hq with h1 | h1
            · rcases List.mem_cons.mp h1 with rfl | h2
              · exact absurd rfl hqb
              · exact Or.inl h2
            · exact Or.inr h1
        exact ih rest sets R out hI1 hI2 hI3' h

/-- Claim C2 (amended): when liveness construction terminates on a function
whose CFG was successfully constructed, the dataflow equations
`live_out = union of live_in over successors` and
`live_in = (live_out - defs) ∪ uses` hold for every block reachable from
the entry block along the CFG's successor edges (a block unreachable from
the entry need not satisfy them). -/
theorem liveness_fixpoint {I : Type} (S : InstSet I) (f f' : Func I) (cfg : CFG)
    (fuel : Nat) (sets : LiveSets)
    (hcfg : f.constructCfg S = some (.ok (), f'))
    (hcache : f'.cfg = some cfg)
    (hconstruct : livenessConstruct S f cfg fuel = some sets)
    (b : Nat) (hreach : Reachable cfg.succList 0 b) :
    sets.lout b = succUnion cfg sets.lin ∅ b
    ∧ sets.lin b = (sets.lout b \ blockDefs S f b) ∪ blockUses S f b := by
  obtain ⟨cfg0, hc0, -, -, hcons, -, -, -⟩ := constructCfg_ok_char S hcfg
  have hcfg0 : cfg0 = cfg := by
    rw [hc0] at hcache
    exact Option.some_inj.mp hcache
  subst hcfg0
  unfold livenessConstruct at hconstruct
  cases hrpo : computeReversePostorder f cfg0 fuel with
  | none => rw [hrpo] at hconstruct; exact absurd hconstruct (by simp)
  | some rpo =>
    simp only [hrpo] at hconstruct
    have hcomplete : ∀ q, Reachable cfg0.succList 0 q → q ∈ rpo := by
      unfold computeReversePostorder at hrpo
      cases hE : f.getEntryBlock with
      | none => rw [hE] at hrpo; exact absurd hrpo (by simp)
      | some entry =>
        simp only [hE] at hrpo
        have hent : entry = 0 := by
          unfold Func.getEntryBlock at hE
          split at hE
          · exact (Option.some_inj.mp hE).symm
          · exact absurd hE (by simp)
        subst hent
        exact dfs_complete hrpo
    exact constructLoop_spec (blockUses S f) (blockDefs S f) cfg0
      (fun q b' => hcons q b') fuel rpo.reverse ⟨fun _ => ∅, fun _ => ∅⟩
      (Reachable cfg0.succList 0) sets
      (by intro q; simp) (by intro q; simp)
      (fun q hq => Or.inl (List.mem_reverse.mpr (hcomplete q hq)))
      hconstruct b hreach

/-- Function with an unreachable second block that reads a register:
block 0 is `ret`; block 1 is `mov rax rbx; ret` (uses RBX = register 1)
and no block branches to it. -/
def cexFunc : Func X64Inst :=
  { blocks := [[.Ret], [.Mov64rr 0 1, .Ret]], vregsCount := 0, cfg := none }

/-- Claim C2 counterexample: on `cexFunc` the CFG builds successfully (two
blocks, no edges), liveness construction terminates, but the unreachable
block 1 violates `live_in = (live_out - defs) ∪ uses`: its upward-exposed
use of RBX never enters `live_in`, which stays empty. -/
theorem liveness_fixpoint_counterexample :
    Func.constructCfg x64 cexFunc = some (.ok (), { cexFunc with cfg := some (CFG.new 0 2) })
    ∧ cexFunc.blocks.length = 2
    ∧ (livenessConstruct x64 cexFunc (CFG.new 0 2) 10).map
        (fun sets => decide (sets.lin 1
          = (sets.lout 1 \ blockDefs x64 cexFunc 1) ∪ blockUses x64 cexFunc 1))
      = some false :=
  ⟨rfl, rfl, rfl⟩

/-- Claim C2 witness: on the sample two-block function the equations hold
at the reachable block 1. -/
theorem liveness_fixpoint_witness :
    ∃ sets, livenessConstruct x64 sampleFunc sampleCfg 32 = some sets
      ∧ sets.lout 1 = succUnion sampleCfg sets.lin ∅ 1
      ∧ sets.lin 1 = (sets.lout 1 \ blockDefs x64 sampleFunc 1) ∪ blockUses x64 sampleFunc 1 := by
  have hsome : (livenessConstruct x64 sampleFunc sampleCfg 32).isSome = true := rfl
  cases hcon : livenessConstruct x64 sampleFunc sampleCfg 32 with
  | none => rw [hcon] at hsome; simp at hsome
  | some s =>
    refine ⟨s, rfl, ?_⟩
    exact liveness_fixpoint x64 sampleFunc sampleFuncBuilt sampleCfg 32 s rfl rfl hcon 1
      (Reachable.step Reachable.refl (by decide))

/-- Sort key of a live range: the derived `Ord` of the Rust structure is
lexicographic on `(reg, start, end)`. -/
def LiveRange.key (r : LiveRange) : Lex (Nat × Lex (ProgramPoint × ProgramPoint)) :=
  toLex (r.reg, toLex (r.start, r.stop))

/-- Strict comparison of live ranges per the derived `Ord`. -/
def rangeLt (a b : LiveRange) : Prop := a.key < b.key

instance (a b : LiveRange) : Decidable (rangeLt a b) := by
  unfold rangeLt; infer_instance

/-- Stable insertion used to model `ranges.sort()` (Rust's stable sort by
the derived order): an element is placed before the first strictly greater
element. -/
def insertSorted (x : LiveRange) : List LiveRange → List LiveRange
  | [] => [x]
  | y :: ys => if rangeLt x y then x :: y :: ys else y :: insertSorted x ys

/-- Stable sort of a range list (`ranges.sort()`). -/
def sortRanges (l : List LiveRange) : List LiveRange :=
  l.foldr insertSorted []

/-- The merge criterion of `LivenessAnalysis::merge_intervals` between the
accumulated `current` range and the `next` range (note the precedence of
the Rust condition: an overlap/touch, or the cross-block heuristic
`block_len ≥ current.end.inst_index && next.start.inst_index == 0`). -/
def mergeCondition {I : Type} (f : Func I) (current next : LiveRange) : Prop :=
  next.start ≤ current.stop
    ∨ ((f.getBlockData current.stop.block).length ≥ current.stop.instIndex
        ∧ next.start.instIndex = 0)

instance {I : Type} (f : Func I) (a b : LiveRange) :
    Decidable (mergeCondition f a b) := by
  unfold mergeCondition; infer_instance

/-- Accumulation loop of `merge_intervals`: merging extends the current
range's end to the next range's end; otherwise the current range is pushed
and the next becomes current. -/
def mergeLoop {I : Type} (f : Func I) : LiveRange → List LiveRange → List LiveRange
  | current, [] => [current]
  | current, next :: rest =>
    if mergeCondition f current next then
      mergeLoop f { current with stop := next.stop } rest
    else
      current :: mergeLoop f next rest

/-- One register's pass of `merge_intervals`: skip empty lists, sort, then
run the accumulation loop from the first range. -/
def mergeOne {I : Type} (f : Func I) (ranges : List LiveRange) : List LiveRange :=
  match sortRanges ranges with
  | [] => []
  | r0 :: rest => mergeLoop f r0 rest

/-- Whole-map pass of `merge_intervals` over every register id below the
live-range map's capacity. -/
def mergeAll {I : Type} (f : Func I) (count : Nat) (lr : Nat → List LiveRange) :
    Nat → List LiveRange :=
  fun r => if r < count then mergeOne f (lr r) else lr r

/-- Live-in seeding of `compute_live_ranges`: a register live-in to the
block opens a range at `(b, 0)` ending at the block's length if it is also
live-out, else at `(b, 0)`. -/
def pushLiveInRange (lout : Finset Nat) (b len : Nat) (lr : Nat → List LiveRange)
    (r : Nat) : Nat → List LiveRange :=
  let e := if r ∈ lout then len else 0
  Function.update lr r (lr r ++ [⟨r, ⟨b, 0⟩, ⟨b, e⟩⟩])

/-- Use handling of `compute_live_ranges`: extend the last open range of
the register to the current point (`last_mut().unwrap()` panics when the
register has no range yet). -/
def applyUse (p : ProgramPoint) (lr : Nat → List LiveRange) (reg : Nat) :
    Option (Nat → List LiveRange) :=
  match (lr reg).getLast? with
  | none => none
  | some last =>
    if last.stop < p then
      some (Function.update lr reg ((lr reg).dropLast ++ [{ last with stop := p }]))
    else
      some lr

/-- Def handling of `compute_live_ranges`: start a new one-point range
unless an existing range already covers the point. -/
def applyDef (p : ProgramPoint) (lr : Nat → List LiveRange) (reg : Nat) :
    Nat → List LiveRange :=
  match (lr reg).getLast? with
  | some last =>
    if p ≤ last.stop then lr
    else Function.update lr reg (lr reg ++ [⟨reg, p, p⟩])
  | none => Function.update lr reg (lr reg ++ [⟨reg, p, p⟩])

/-- Per-instruction pass of `compute_live_ranges`: uses first, then defs. -/
def applyInst {I : Type} (S : InstSet I) (b i : Nat) (lr : Nat → List LiveRange)
    (inst : I) : Option (Nat → List LiveRange) :=
  match (S.getUses inst).foldlM (applyUse ⟨b, i⟩) lr with
  | none => none
  | some lr1 => some ((S.getDefs inst).foldl (applyDef ⟨b, i⟩) lr1)

/-- Live-out pinning of `compute_live_ranges`: the register's final range
ends at the block length (`last_mut().unwrap()` panics when empty). -/
def pinLiveOut (b len : Nat) (lr : Nat → List LiveRange) (r : Nat) :
    Option (Nat → List LiveRange) :=
  match (lr r).getLast? with
  | none => none
  | some last =>
    some (Function.update lr r ((lr r).dropLast ++ [{ last with stop := ⟨b, len⟩ }]))

/-- Ascending iteration over the set bits of a bit set (`iter_ones`): the
elements of the set, ascending.  (Defined through a bounded range filter so
that it evaluates inside the kernel; `finsetAsc_mem` and
`finsetAsc_sorted` check it is exactly the ascending enumeration.) -/
def finsetAsc (s : Finset Nat) : List Nat :=
  (List.range (s.fold max 0 id + 1)).filter (fun x => decide (x ∈ s))

theorem finsetAsc_mem {s : Finset Nat} {x : Nat} : x ∈ finsetAsc s ↔ x ∈ s := by
  unfold finsetAsc
  rw [List.mem_filter]
  constructor
  · rintro ⟨-, h⟩
    simpa using h
  · intro h
    refine ⟨?_, by simpa using h⟩
    rw [List.mem_range]
    have : x ≤ s.fold max 0 id := by
      rw [Finset.le_fold_max]
      exact Or.inr ⟨x, h, le_refl x⟩
    omega

theorem finsetAsc_sorted (s : Finset Nat) :
    List.Pairwise (fun a b => a < b) (finsetAsc s) := by
  unfold finsetAsc
  exact (List.pairwise_lt_range _).filter _

/-- One block's pass of `compute_live_ranges`: live-in seeding (ascending
register order, `iter_ones`), the instruction walk, then live-out
pinning. -/
def processBlock {I : Type} (S : InstSet I) (sets : LiveSets) (b : Nat)
    (bd : List I) (lr : Nat → List LiveRange) : Option (Nat → List LiveRange) :=
  let lr0 := (finsetAsc (sets.lin b)).foldl (pushLiveInRange (sets.lout b) b bd.length) lr
  match bd.enum.foldlM (fun lr1 (pair : Nat × I) => applyInst S b pair.1 lr1 pair.2) lr0 with
  | none => none
  | some lr1 => (finsetAsc (sets.lout b)).foldlM (pinLiveOut b bd.length) lr1

/-- Block loop of `compute_live_ranges`, with the whole-map merge run after
each block. -/
def clrAux {I : Type} (S : InstSet I) (f : Func I) (sets : LiveSets) (count : Nat) :
    List (BlockData I) → Nat → (Nat → List LiveRange) → Option (Nat → List LiveRange)
  | [], _, lr => some lr
  | bd :: rest, b, lr =>
    match processBlock S sets b bd lr with
    | none => none
    | some lr1 => clrAux S f sets count rest (b + 1) (mergeAll f count lr1)

/-- Constructor `LivenessAnalysis::new`: the dataflow fixed point followed
by live-range materialization; the register universe has
`func.get_regs_count()` entries. -/
def livenessNew {I : Type} (S : InstSet I) (f : Func I) (cfg : CFG) (fuel : Nat) :
    Option (LiveSets × (Nat → List LiveRange)) :=
  match livenessConstruct S f cfg fuel with
  | none => none
  | some sets =>
    match clrAux S f sets (f.getRegsCount S) f.blocks 0 (fun _ => []) with
    | none => none
    | some lr => some (sets, lr)

theorem mem_of_getLast?_eq {α : Type} {l : List α} {x : α}
    (h : l.getLast? = some x) : x ∈ l := by
  obtain ⟨hne, rfl⟩ := List.mem_getLast?_eq_getLast (l := l) (x := x) (by rw [h]; rfl)
  exact List.getLast_mem hne

theorem foldl_inv {α β : Type} {P : β → Prop} {g : β → α → β} :
    ∀ {l : List α} {b0 : β},
    (∀ b x, x ∈ l → P b → P (g b x)) → P b0 → P (l.foldl g b0)
  | [], _, _, h0 => h0
  | x :: l, b0, hstep, h0 => by
    show P (l.foldl g (g b0 x))
    exact foldl_inv (fun b y hy hb => hstep b y (List.mem_cons_of_mem _ hy) hb)
      (hstep b0 x (List.mem_cons_self _ _) h0)

theorem foldlM_inv {α β : Type} {P : β → Prop} {g : β → α → Option β} :
    ∀ {l : List α} {b0 out : β},
    (∀ b x b', x ∈ l → P b → g b x = some b' → P b') →
    P b0 → l.foldlM g b0 = some out → P out := by
  intro l
  induction l with
  | nil =>
    intro b0 out _ h0 h
    have : b0 = out := by simpa using h
    subst this
    exact h0
  | cons x l ih =>
    intro b0 out hstep h0 h
    rw [List.foldlM_cons] at h
    cases hg : g b0 x with
    | none => rw [hg] at h; simp at h
    | some b1 =>
      rw [hg] at h
      simp only [Option.bind_eq_bind, Option.some_bind] at h
      exact ih (fun b y b' hy => hstep b y b' (List.mem_cons_of_mem _ hy))
        (hstep b0 x b1 (List.mem_cons_self _ _) h0 hg) h

theorem mem_insertSorted {x a : LiveRange} :
    ∀ {l : List LiveRange}, a ∈ insertSorted x l ↔ a = x ∨ a ∈ l
  | [] => by simp [insertSorted]
  | y :: ys => by
    rw [insertSorted]
    by_cases h : rangeLt x y
    · rw [if_pos h]
      simp
    · rw [if_neg h]
      simp only [List.mem_cons, mem_insertSorted (l := ys)]
      tauto

theorem mem_sortRanges {a : LiveRange} :
    ∀ {l : List LiveRange}, a ∈ sortRanges l ↔ a ∈ l
  | [] => by simp [sortRanges]
  | y :: ys => by
    show a ∈ insertSorted y (sortRanges ys) ↔ _
    rw [mem_insertSorted, mem_sortRanges (l := ys), List.mem_cons]

theorem insertSorted_pairwise {x : LiveRange} :
    ∀ {l : List LiveRange}, List.Pairwise (fun a b => ¬ rangeLt b a) l →
    List.Pairwise (fun a b => ¬ rangeLt b a) (insertSorted x l)
  | [], _ => by simp [insertSorted]
  | y :: ys, hp => by
    rw [insertSorted]
    obtain ⟨hy, hys⟩ := List.pairwise_cons.mp hp
    by_cases h : rangeLt x y
    · rw [if_pos h]
      refine List.pairwise_cons.mpr ⟨?_, hp⟩
      intro z hz
      rcases List.mem_cons.mp hz with rfl | hz'
      · exact lt_asymm h
      · intro hzx
        exact absurd (lt_trans hzx h) (hy z hz')
    · rw [if_neg h]
      refine List.pairwise_cons.mpr ⟨?_, insertSorted_pairwise hys⟩
      intro z hz
      rcases mem_insertSorted.mp hz with rfl | hz'
      · exact h
      · exact hy z hz'

theorem sortRanges_pairwise :
    ∀ (l : List LiveRange), List.Pairwise (fun a b => ¬ rangeLt b a) (sortRanges l)
  | [] => by simp [sortRanges]
  | y :: ys => insertSorted_pairwise (sortRanges_pairwise ys)

theorem pairwise_start_le {l : List LiveRange} {c : Nat}
    (hreg : ∀ x ∈ l, x.reg = c)
    (hp : List.Pairwise (fun a b => ¬ rangeLt b a) l) :
    List.Pairwise (fun a b => a.start ≤ b.start) l := by
  refine List.Pairwise.imp_of_mem ?_ hp
  intro a b ha hb hnab
  have hle : a.key ≤ b.key := not_lt.mp hnab
  unfold LiveRange.key at hle
  rw [Prod.Lex.le_iff] at hle
  rcases hle with h1 | ⟨h1, h2⟩
  · simp only at h1
    rw [hreg a ha, hreg b hb] at h1
    omega
  · rw [Prod.Lex.le_iff] at h2
    rcases h2 with h3 | ⟨h3, -⟩
    · exact le_of_lt h3
    · simp only at h3
      exact le_of_eq h3

theorem mergeCondition_start {I : Type} {f : Func I} {a b b' : LiveRange}
    (h : b.start = b'.start) : mergeCondition f a b ↔ mergeCondition f a b' := by
  unfold mergeCondition
  rw [h]

/-- Behaviour of the merge accumulation loop on a well-formed,
start-sorted input: the output ranges are well-formed, strictly separated
(each ends before the next starts), no adjacent pair still satisfies the
merge criterion, all output starts bound below by the current start, the
head keeps the current start, and every output's start/reg pair originates
from an input range. -/
theorem mergeLoop_spec {I : Type} (f : Func I) :
    ∀ (rest : List LiveRange) (current : LiveRange),
    current.start ≤ current.stop →
    (∀ x ∈ rest, x.start ≤ x.stop) →
    (∀ x ∈ rest, current.start ≤ x.start) →
    List.Pairwise (fun a b => a.start ≤ b.start) rest →
    (∀ x ∈ mergeLoop f current rest, x.start ≤ x.stop)
    ∧ List.Pairwise (fun a b => a.stop < b.start) (mergeLoop f current rest)
    ∧ List.Chain' (fun a b => ¬ mergeCondition f a b) (mergeLoop f current rest)
    ∧ (∀ x ∈ mergeLoop f current rest, current.start ≤ x.start)
    ∧ (∃ y, (mergeLoop f current rest).head? = some y ∧ y.start = current.start)
    ∧ (∀ x ∈ mergeLoop f current rest,
        ∃ y, (y = current ∨ y ∈ rest) ∧ x.start = y.start ∧ x.reg = y.reg)
  | [], current, hc, _, _, _ => by
    refine ⟨?_, ?_, ?_, ?_, ⟨current, rfl, rfl⟩, ?_⟩
    · intro x hx
      rw [mergeLoop, List.mem_singleton] at hx
      subst hx
      exact hc
    · exact List.pairwise_singleton _ _
    · exact List.chain'_singleton _
    · intro x hx
      rw [mergeLoop, List.mem_singleton] at hx
      subst hx
      exact le_refl _
    · intro x hx
      rw [mergeLoop, List.mem_singleton] at hx
      subst hx
      exact ⟨x, Or.inl rfl, rfl, rfl⟩
  | next :: rest', current, hc, hwf, hge, hsorted => by
    obtain ⟨hnext_ge, hsorted'⟩ := List.pairwise_cons.mp hsorted
    have hwf' : ∀ x ∈ rest', x.start ≤ x.stop :=
      fun x hx => hwf x (List.mem_cons_of_mem _ hx)
    have hwfnext : next.start ≤ next.stop := hwf next (List.mem_cons_self _ _)
    have hgenext : current.start ≤ next.start := hge next (List.mem_cons_self _ _)
    rw [mergeLoop]
    by_cases hm : mergeCondition f current next
    · rw [if_pos hm]
      have hc' : current.start ≤ next.stop := le_trans hgenext hwfnext
      obtain ⟨r1, r2, r3, r4, r5, r6⟩ :=
        mergeLoop_spec f rest' { current with stop := next.stop } hc' hwf'
          (fun x hx => hge x (List.mem_cons_of_mem _ hx)) hsorted'
      refine ⟨r1, r2, r3, r4, r5, ?_⟩
      intro x hx
      obtain ⟨y, hy, hy1, hy2⟩ := r6 x hx
      rcases hy with rfl | hy'
      · exact ⟨current, Or.inl rfl, hy1, hy2⟩
      · exact ⟨y, Or.inr (List.mem_cons_of_mem _ hy'), hy1, hy2⟩
    · rw [if_neg hm]
      obtain ⟨r1, r2, r3, r4, r5, r6⟩ :=
        mergeLoop_spec f rest' next hwfnext hwf' hnext_ge hsorted'
      have hgap : current.stop < next.start := by
        by_contra hcon
        exact hm (Or.inl (not_lt.mp hcon))
      refine ⟨?_, ?_, ?_, ?_, ⟨current, rfl, rfl⟩, ?_⟩
      · intro x hx
        rcases List.mem_cons.mp hx with rfl | hx'
        · exact hc
        · exact r1 x hx'
      · refine List.pairwise_cons.mpr ⟨?_, r2⟩
        intro x hx
        exact lt_of_lt_of_le hgap (r4 x hx)
      · refine List.chain'_cons'.mpr ⟨?_, r3⟩
        intro y hy
        obtain ⟨y0, hy0, hy0s⟩ := r5
        rw [hy0] at hy
        rw [Option.mem_def, Option.some_inj] at hy
        subst hy
        rw [mergeCondition_start hy0s]
        exact fun hmm => hm ((mergeCondition_start rfl).mp hmm)
      · intro x hx
        rcases List.mem_cons.mp hx with rfl | hx'
        · exact le_refl _
        · exact le_trans hgenext (r4 x hx')
      · intro x hx
        rcases List.mem_cons.mp hx with rfl | hx'
        · exact ⟨x, Or.inl rfl, rfl, rfl⟩
        · obtain ⟨y, hy, hy1, hy2⟩ := r6 x hx'
          rcases hy with rfl | hy'
          · exact ⟨y, Or.inr (List.mem_cons_self _ _), hy1, hy2⟩
          · exact ⟨y, Or.inr (List.mem_cons_of_mem _ hy'), hy1, hy2⟩

/-- Behaviour of one register's `merge_intervals` pass on a well-formed
single-register list: the result is well-formed, pairwise non-overlapping,
maximally merged (no adjacent pair still satisfies the merge criterion),
and start/reg data originates from the input. -/
theorem mergeOne_spec {I : Type} (f : Func I) (l : List LiveRange) (c : Nat)
    (hwf : ∀ x ∈ l, x.start ≤ x.stop) (hreg : ∀ x ∈ l, x.reg = c) :
    (∀ x ∈ mergeOne f l, x.start ≤ x.stop)
    ∧ List.Pairwise (fun a b => ¬ rangesOverlap a b) (mergeOne f l)
    ∧ List.Chain' (fun a b => ¬ mergeCondition f a b) (mergeOne f l)
    ∧ (∀ x ∈ mergeOne f l, ∃ y ∈ l, x.start = y.start ∧ x.reg = y.reg) := by
  unfold mergeOne
  cases hs : sortRanges l with
  | nil => simp
  | cons r0 rest =>
    have hmem : ∀ x, x ∈ r0 :: rest → x ∈ l := by
      intro x hx
      rw [← hs] at hx
      exact mem_sortRanges.mp hx
    have hp : List.Pairwise (fun a b => ¬ rangeLt b a) (r0 :: rest) := by
      rw [← hs]
      exact sortRanges_pairwise l
    have hps : List.Pairwise (fun (a b : LiveRange) => a.start ≤ b.start) (r0 :: rest) :=
      pairwise_start_le (fun x hx => hreg x (hmem x hx)) hp
    obtain ⟨hge, hsorted'⟩ := List.pairwise_cons.mp hps
    obtain ⟨r1, r2, r3, r4, r5, r6⟩ := mergeLoop_spec f rest r0
      (hwf r0 (hmem r0 (List.mem_cons_self _ _)))
      (fun x hx => hwf x (hmem x (List.mem_cons_of_mem _ hx)))
      hge hsorted'
    refine ⟨r1, ?_, r3, ?_⟩
    · refine List.Pairwise.imp_of_mem ?_ r2
      intro a b ha hb hlt hover
      exact absurd hlt (not_lt.mpr hover.2)
    · intro x hx
      obtain ⟨y, hy, hy1, hy2⟩ := r6 x hx
      rcases hy with rfl | hy'
      · exact ⟨y, hmem y (List.mem_cons_self _ _), hy1, hy2⟩
      · exact ⟨y, hmem y (List.mem_cons_of_mem _ hy'), hy1, hy2⟩

/-- Structural invariant of the live-range map during
`compute_live_ranges`: every stored range carries its own index as
register, is well-formed, and starts no later than the bound `B`. -/
def RangeInv (lr : Nat → List LiveRange) (B : ProgramPoint) : Prop :=
  ∀ r, ∀ x ∈ lr r, x.reg = r ∧ x.start ≤ x.stop ∧ x.start ≤ B

theorem RangeInv.mono {lr : Nat → List LiveRange} {B B' : ProgramPoint}
    (h : RangeInv lr B) (hb : B ≤ B') : RangeInv lr B' := by
  intro r x hx
  obtain ⟨h1, h2, h3⟩ := h r x hx
  exact ⟨h1, h2, le_trans h3 hb⟩

theorem pushLiveInRange_inv {lout : Finset Nat} {b len : Nat}
    {lr : Nat → List LiveRange} {r : Nat}
    (h : RangeInv lr ⟨b, len⟩) :
    RangeInv (pushLiveInRange lout b len lr r) ⟨b, len⟩ := by
  intro q x hx
  unfold pushLiveInRange at hx
  rw [Function.update_apply] at hx
  by_cases hq : q = r
  · rw [if_pos hq] at hx
    rcases List.mem_append.mp hx with hx' | hx'
    · subst hq
      exact h q x hx'
    · rw [List.mem_singleton] at hx'
      subst hx'
      subst hq
      refine ⟨rfl, ?_, ?_⟩
      · rw [ProgramPoint.le_iff]
        exact Or.inr ⟨rfl, Nat.zero_le _⟩
      · rw [ProgramPoint.le_iff]
        exact Or.inr ⟨rfl, Nat.zero_le _⟩
  · rw [if_neg hq] at hx
    exact h q x hx

theorem applyUse_inv {p : ProgramPoint} {lr lr' : Nat → List LiveRange}
    {reg : Nat} {B : ProgramPoint}
    (h : RangeInv lr B) (hp : p ≤ B) (happ : applyUse p lr reg = some lr') :
    RangeInv lr' B := by
  unfold applyUse at happ
  cases hlast : (lr reg).getLast? with
  | none => simp [hlast] at happ
  | some last =>
    simp only [hlast] at happ
    by_cases hlt : last.stop < p
    · rw [if_pos hlt] at happ
      obtain rfl : _ = lr' := Option.some_inj.mp happ
      intro q x hx
      rw [Function.update_apply] at hx
      by_cases hq : q = reg
      · rw [if_pos hq] at hx
        rcases List.mem_append.mp hx with hx' | hx'
        · subst hq
          exact h q x (List.dropLast_subset _ hx')
        · rw [List.mem_singleton] at hx'
          subst hx'
          subst hq
          obtain ⟨h1, h2, h3⟩ := h q last (mem_of_getLast?_eq hlast)
          exact ⟨h1, le_of_lt (lt_of_le_of_lt h2 hlt), h3⟩
      · rw [if_neg hq] at hx
        exact h q x hx
    · rw [if_neg hlt] at happ
      obtain rfl : _ = lr' := Option.some_inj.mp happ
      exact h

theorem applyDef_inv {p : ProgramPoint} {lr : Nat → List LiveRange}
    {reg : Nat} {B : ProgramPoint}
    (h : RangeInv lr B) (hp : p ≤ B) :
    RangeInv (applyDef p lr reg) B := by
  have hpush : RangeInv (Function.update lr reg (lr reg ++ [⟨reg, p, p⟩])) B := by
    intro q x hx
    rw [Function.update_apply] at hx
    by_cases hq : q = reg
    · rw [if_pos hq] at hx
      rcases List.mem_append.mp hx with hx' | hx'
      · subst hq
        exact h q x hx'
      · rw [List.mem_singleton] at hx'
        subst hx'
        subst hq
        exact ⟨rfl, le_refl _, hp⟩
    · rw [if_neg hq] at hx
      exact h q x hx
  cases hlast : (lr reg).getLast? with
  | none =>
    simp only [applyDef, hlast]
    exact hpush
  | some last =>
    simp only [applyDef, hlast]
    by_cases hle : p ≤ last.stop
    · rw [if_pos hle]
      exact h
    · rw [if_neg hle]
      exact hpush

theorem applyInst_inv {I : Type} {S : InstSet I} {b i : Nat}
    {lr lr' : Nat → List LiveRange} {inst : I} {B : ProgramPoint}
    (h : RangeInv lr B) (hp : (⟨b, i⟩ : ProgramPoint) ≤ B)
    (happ : applyInst S b i lr inst = some lr') :
    RangeInv lr' B := by
  unfold applyInst at happ
  cases hfold : (S.getUses inst).foldlM (applyUse ⟨b, i⟩) lr with
  | none => simp [hfold] at happ
  | some lr1 =>
    simp only [hfold] at happ
    obtain rfl : _ = lr' := Option.some_inj.mp happ
    have h1 : RangeInv lr1 B :=
      foldlM_inv (P := fun m => RangeInv m B)
        (fun m x m' _ hm hstep => applyUse_inv hm hp hstep) h hfold
    exact foldl_inv (P := fun m => RangeInv m B)
      (fun m x _ hm => applyDef_inv hm hp) h1

theorem pinLiveOut_inv {b len : Nat} {lr lr' : Nat → List LiveRange} {r : Nat}
    (h : RangeInv lr ⟨b, len⟩) (hpin : pinLiveOut b len lr r = some lr') :
    RangeInv lr' ⟨b, len⟩ := by
  unfold pinLiveOut at hpin
  cases hlast : (lr r).getLast? with
  | none => simp [hlast] at hpin
  | some last =>
    simp only [hlast] at hpin
    obtain rfl : _ = lr' := Option.some_inj.mp hpin
    intro q x hx
    rw [Function.update_apply] at hx
    by_cases hq : q = r
    · rw [if_pos hq] at hx
      rcases List.mem_append.mp hx with hx' | hx'
      · subst hq
        exact h q x (List.dropLast_subset _ hx')
      · rw [List.mem_singleton] at hx'
        subst hx'
        subst hq
        obtain ⟨h1, h2, h3⟩ := h q last (mem_of_getLast?_eq hlast)
        exact ⟨h1, h3, h3⟩
    · rw [if_neg hq] at hx
      exact h q x hx

theorem processBlock_inv {I : Type} {S : InstSet I} {sets : LiveSets} {b : Nat}
    {bd : List I} {lr lr' : Nat → List LiveRange}
    (h : RangeInv lr ⟨b, 0⟩)
    (hproc : processBlock S sets b bd lr = some lr') :
    RangeInv lr' ⟨b, bd.length⟩ := by
  have h0 : RangeInv lr ⟨b, bd.length⟩ :=
    h.mono (by rw [ProgramPoint.le_iff]; exact Or.inr ⟨rfl, Nat.zero_le _⟩)
  unfold processBlock at hproc
  have h1 : RangeInv
      ((finsetAsc (sets.lin b)).foldl (pushLiveInRange (sets.lout b) b bd.length) lr)
      ⟨b, bd.length⟩ :=
    foldl_inv (P := fun m => RangeInv m ⟨b, bd.length⟩)
      (fun m x _ hm => pushLiveInRange_inv hm) h0
  cases hfold : bd.enum.foldlM
      (fun lr1 (pair : Nat × I) => applyInst S b pair.1 lr1 pair.2)
      ((finsetAsc (sets.lin b)).foldl (pushLiveInRange (sets.lout b) b bd.length) lr) with
  | none => simp [hfold] at hproc
  | some lr1 =>
    simp only [hfold] at hproc
    have h2 : RangeInv lr1 ⟨b, bd.length⟩ := by
      refine foldlM_inv (P := fun m => RangeInv m ⟨b, bd.length⟩) ?_ h1 hfold
      intro m x m' hx hm hstep
      obtain ⟨i, inst⟩ := x
      have hi : i < bd.length := by
        have h' := List.mem_enum_iff_getElem?.mp hx
        exact (List.getElem?_eq_some.mp h').1
      refine applyInst_inv hm ?_ hstep
      rw [ProgramPoint.le_iff]
      exact Or.inr ⟨rfl, le_of_lt hi⟩
    exact foldlM_inv (P := fun m => RangeInv m ⟨b, bd.length⟩)
      (fun m x m' _ hm hstep => pinLiveOut_inv hm hstep) h2 hproc

theorem mergeAll_inv {I : Type} {f : Func I} {count : Nat}
    {lr : Nat → List LiveRange} {B : ProgramPoint}
    (h : RangeInv lr B) : RangeInv (mergeAll f count lr) B := by
  intro r x hx
  unfold mergeAll at hx
  by_cases hr : r < count
  · rw [if_pos hr] at hx
    obtain ⟨-, -, -, horigin⟩ := mergeOne_spec f (lr r) r
      (fun y hy => (h r y hy).2.1) (fun y hy => (h r y hy).1)
    obtain ⟨y, hy, hy1, hy2⟩ := horigin x hx
    obtain ⟨g1, g2, g3⟩ := h r y hy
    refine ⟨by rw [hy2, g1], ?_, by rw [hy1]; exact g3⟩
    · obtain ⟨w1, -, -, -⟩ := mergeOne_spec f (lr r) r
        (fun y hy => (h r y hy).2.1) (fun y hy => (h r y hy).1)
      exact w1 x hx
  · rw [if_neg hr] at hx
    exact h r x hx

/-- State of one register's range list after a merge pass: pairwise
non-overlapping and maximally merged (no adjacent pair still satisfies the
merge criterion). -/
def MergedProp {I : Type} (f : Func I) (l : List LiveRange) : Prop :=
  List.Pairwise (fun a b => ¬ rangesOverlap a b) l
    ∧ List.Chain' (fun a b => ¬ mergeCondition f a b) l

theorem clrAux_spec {I : Type} (S : InstSet I) (f : Func I) (sets : LiveSets)
    (count : Nat) :
    ∀ (blocks : List (BlockData I)) (b : Nat) (lr out : Nat → List LiveRange),
    RangeInv lr ⟨b, 0⟩ →
    (∀ r, r < count → MergedProp f (lr r)) →
    clrAux S f sets count blocks b lr = some out →
    ∀ r, r < count → MergedProp f (out r)
  | [], b, lr, out, _, hmerged, h => by
    have hlr : lr = out := by simpa [clrAux] using h
    subst hlr
    exact hmerged
  | bd :: rest, b, lr, out, hinv, _, h => by
    cases hproc : processBlock S sets b bd lr with
    | none => simp [clrAux, hproc] at h
    | some lr1 =>
      simp only [clrAux, hproc] at h
      have hinv1 : RangeInv lr1 ⟨b, bd.length⟩ := processBlock_inv hinv hproc
      have hinv2 : RangeInv (mergeAll f count lr1) ⟨b + 1, 0⟩ :=
        (mergeAll_inv hinv1).mono
          (by rw [ProgramPoint.le_iff]; exact Or.inl (Nat.lt_succ_self b))
      have hmerged2 : ∀ r, r < count → MergedProp f ((mergeAll f count lr1) r) := by
        intro r hr
        unfold mergeAll
        rw [if_pos hr]
        obtain ⟨-, w2, w3, -⟩ := mergeOne_spec f (lr1 r) r
          (fun y hy => (hinv1 r y hy).2.1) (fun y hy => (hinv1 r y hy).1)
        exact ⟨w2, w3⟩
      exact clrAux_spec S f sets count rest (b + 1) _ out hinv2 hmerged2 h

/-- Claim C4: after liveness construction (including interval merging)
completes, every register's stored range list (every id below the
register-universe capacity) holds no two overlapping ranges, and no
adjacent pair still satisfies the code's merge criterion — the list is
maximally merged. -/
theorem liveness_ranges_disjoint_merged {I : Type} (S : InstSet I) (f : Func I)
    (cfg : CFG) (fuel : Nat) (res : LiveSets × (Nat → List LiveRange))
    (h : livenessNew S f cfg fuel = some res)
    (r : Nat) (hr : r < f.getRegsCount S) :
    List.Pairwise (fun a b => ¬ rangesOverlap a b) (res.2 r)
    ∧ List.Chain' (fun a b => ¬ mergeCondition f a b) (res.2 r) := by
  unfold livenessNew at h
  cases h1 : livenessConstruct S f cfg fuel with
  | none => simp [h1] at h
  | some sets =>
    simp only [h1] at h
    cases h2 : clrAux S f sets (f.getRegsCount S) f.blocks 0 (fun _ => []) with
    | none => simp [h2] at h
    | some lr =>
      simp only [h2, Option.some_inj] at h
      subst h
      exact clrAux_spec S f sets (f.getRegsCount S) f.blocks 0 _ lr
        (fun q x hx => absurd hx (List.not_mem_nil x))
        (fun q _ => ⟨List.Pairwise.nil, List.chain'_nil⟩) h2 r hr

/-- Claim C4 witness: the sample function's analysis completes and the
stored list of the virtual register v0 (= 16) is non-overlapping and
maximally merged. -/
theorem liveness_ranges_disjoint_merged_witness :
    ∃ res, livenessNew x64 sampleFunc sampleCfg 64 = some res
      ∧ List.Pairwise (fun a b => ¬ rangesOverlap a b) (res.2 16)
      ∧ List.Chain' (fun a b => ¬ mergeCondition sampleFunc a b) (res.2 16) := by
  have hsome : (livenessNew x64 sampleFunc sampleCfg 64).isSome = true := rfl
  cases hcon : livenessNew x64 sampleFunc sampleCfg 64 with
  | none => rw [hcon] at hsome; simp at hsome
  | some res =>
    exact ⟨res, rfl,
      liveness_ranges_disjoint_merged x64 sampleFunc sampleCfg 64 res hcon 16
        (by norm_num [Func.getRegsCount, x64, sampleFunc])⟩

/-! ### Claim C3: applying the register-allocation result -/

/-- Stable insertion by range start into an ascending list, used to model
the stable `ra_intervals.sort_by_key(|i| i.range.start)` of
`apply_regalloc_result`: an element is placed before the first entry with a
strictly larger start, hence after earlier entries with an equal start. -/
def insertByStart (x : RegAllocResult) : List RegAllocResult → List RegAllocResult
  | [] => [x]
  | y :: ys =>
    if x.range.start < y.range.start then x :: y :: ys else y :: insertByStart x ys

/-- Stable sort of the interval list by range start
(`sort_by_key(|i| i.range.start)`). -/
def sortByStart (l : List RegAllocResult) : List RegAllocResult :=
  l.foldl (fun acc x => insertByStart x acc) []

/-- The pop-while loop of `apply_regalloc_result` at one program point.
The Rust sorts the intervals ascending by start, reverses the vector and
pops from the back, so the embedding keeps the ascending list and consumes
its head.  A popped interval records its allocated slot at index
`reg - preg_count` of the slot vector; that unsigned subtraction and the
vector index panic when `reg` is below `preg_count` or the index is out of
range, embedded as `none`. -/
def popIntervals (pregCount : Nat) (p : ProgramPoint) :
    List RegAllocResult → List (Option AllocatedSlot) →
      Option (List RegAllocResult × List (Option AllocatedSlot))
  | [], slots => some ([], slots)
  | iv :: rest, slots =>
    if iv.range.start ≤ p ∧ p ≤ iv.range.stop then
      if pregCount ≤ iv.range.reg ∧ iv.range.reg - pregCount < slots.length then
        popIntervals pregCount p rest
          (slots.set (iv.range.reg - pregCount) (some iv.allocatedSlot))
      else none
    else some (iv :: rest, slots)

/-- Operand rewrite of one instruction in `apply_regalloc_result`: every
def, then every use, at or above `preg_count()` is looked up in the slot
vector and substituted via `Inst::replace`.  A slot that is unassigned or
holds `AllocatedSlot::Stack` is the `todo!()` of the source — a panic — and
an out-of-range slot index is an index panic; both are `none`. -/
def rewriteInst {I : Type} (S : InstSet I) (slots : List (Option AllocatedSlot))
    (inst : I) : Option I :=
  (S.getDefs inst ++ S.getUses inst).foldlM
    (fun ni old =>
      if S.pregCount ≤ old then
        match slots.getD (old - S.pregCount) none with
        | some (.Reg n) => some (S.replace ni old n)
        | _ => none
      else some ni) inst

/-- Instruction loop of `apply_regalloc_result` over one block: at each
ascending instruction index, pop the intervals covering the program point
into the slot vector and rewrite the instruction. -/
def applyBlockLoop {I : Type} (S : InstSet I) (b : Nat) :
    List I → Nat → List RegAllocResult → List (Option AllocatedSlot) →
      Option (List I × List RegAllocResult × List (Option AllocatedSlot))
  | [], _, stack, slots => some ([], stack, slots)
  | inst :: rest, idx, stack, slots =>
    match popIntervals S.pregCount ⟨b, idx⟩ stack slots with
    | none => none
    | some (stack1, slots1) =>
      match rewriteInst S slots1 inst with
      | none => none
      | some ni =>
        match applyBlockLoop S b rest (idx + 1) stack1 slots1 with
        | none => none
        | some (nrest, stack2, slots2) => some (ni :: nrest, stack2, slots2)

/-- Block loop of `apply_regalloc_result` over the arena in key order
(`blocks_iter`), threading the interval stack and the slot vector. -/
def applyBlocksLoop {I : Type} (S : InstSet I) :
    List (BlockData I) → Nat → List RegAllocResult → List (Option AllocatedSlot) →
      Option (List (BlockData I))
  | [], _, _, _ => some []
  | bd :: rest, b, stack, slots =>
    match applyBlockLoop S b bd 0 stack slots with
    | none => none
    | some (nbd, stack1, slots1) =>
      match applyBlocksLoop S rest (b + 1) stack1 slots1 with
      | none => none
      | some nrest => some (nbd :: nrest)

/-- `apply_regalloc_result`: size the slot vector to
`get_regs_count() - preg_count()`, sort the intervals by range start and
reverse (the embedding consumes the ascending list from the head, matching
the Rust pop from the back of the reversed vector), rewrite all blocks,
and write every rewritten block back through `get_block_data_mut`, which
invalidates the cached CFG. -/
def applyRegallocResult {I : Type} (S : InstSet I) (f : Func I)
    (raIntervals : List RegAllocResult) : Option (Func I) :=
  let slots0 : List (Option AllocatedSlot) :=
    List.replicate (f.getRegsCount S - S.pregCount) none
  match applyBlocksLoop S f.blocks 0 (sortByStart raIntervals) slots0 with
  | none => none
  | some newBlocks =>
    some ((List.range f.blocks.length).foldl
      (fun g b => { blocks := g.blocks.set b (newBlocks.getD b [])
                    vregsCount := g.vregsCount
                    cfg := none }) f)

/-- Claim C3: the claim promises that a stack (spill) slot is a
materializable output and that `apply_regalloc_result` rewrites the whole
function without aborting also when some live range was allocated a stack
slot.  The code falsifies the stack-slot half: on the repository's own
two-block test function, applying the allocation `{v0 ↦ Reg RBX}` succeeds
and rewrites both instructions referencing `v0` (first conjunct, matching
the repository test), but the same function with the same range allocated
`Stack 0` aborts at the `todo!()` of `apply_regalloc_result` (second
conjunct): stack slots are never materialized. -/
theorem apply_regalloc_stack_slot_aborts :
    applyRegallocResult x64 sampleFunc [⟨⟨16, ⟨0, 0⟩, ⟨1, 0⟩⟩, .Reg 1⟩]
      = some { blocks := [[.Mov64rr 1 0, .Jmp 1], [.Mov64rr 0 1, .Ret]]
               vregsCount := 1
               cfg := none }
    ∧ applyRegallocResult x64 sampleFunc [⟨⟨16, ⟨0, 0⟩, ⟨1, 0⟩⟩, .Stack 0⟩]
      = none :=
  ⟨rfl, rfl⟩

/-! ### Claim C5: dominator tree and entry dominance -/

/-- Per-block node of `analysis/dom_tree.rs` (`struct Node`): the
reverse-postorder rank and the immediate dominator. -/
structure DomNode where
  rpo : Nat
  idom : Option Nat
deriving DecidableEq, Repr

instance : Inhabited DomNode := ⟨⟨0, none⟩⟩

/-- Dominator tree of `analysis/dom_tree.rs`: the node map (a
`SecondaryMap<Block, Node>` of capacity `blocks_count`, embedded as a list
of that length) and the recorded traversal order.  The source stores the
DFS visitation order — a preorder — under the name `reverse_postorder`. -/
structure DomTree where
  nodes : List DomNode
  reversePostorder : List Nat
deriving DecidableEq, Repr

/-- Walk of `DomTree::common_dominator`: while the ranks differ, the block
with the larger rank walks one step up its immediate-dominator chain; the
`unwrap` of a missing immediate dominator is a panic, embedded as `none`,
and the fuel bounds the source's unbounded `loop`. -/
def commonDominator (nodes : List DomNode) : Nat → Nat → Nat → Option Nat
  | 0, _, _ => none
  | fuel + 1, a, b =>
    if (nodes.getD a default).rpo < (nodes.getD b default).rpo then
      match (nodes.getD b default).idom with
      | none => none
      | some i => commonDominator nodes fuel a i
    else if (nodes.getD b default).rpo < (nodes.getD a default).rpo then
      match (nodes.getD a default).idom with
      | none => none
      | some i => commonDominator nodes fuel i b
    else some a

/-- Predecessor fold of `DomTree::compute_idom`: keep the predecessors with
rank above 1 (the blocks already ranked by the traversal), `unwrap` the
first — a panic when there is none — and fold `common_dominator` over the
rest. -/
def computeIdom (nodes : List DomNode) (cfg : CFG) (fuel b : Nat) : Option Nat :=
  match (cfg.predList b).filter (fun p => decide (1 < (nodes.getD p default).rpo)) with
  | [] => none
  | p0 :: rest => rest.foldlM (fun c p => commonDominator nodes fuel c p) p0

/-- Initial pass of `DomTree::compute_domtree` over the non-entry blocks of
the traversal order: for the block at position `i` the node is overwritten
with the idom computed against the current state and the rank
`(i + 3) * STRIDE` (`STRIDE = 4`). -/
def initDomLoop (cfg : CFG) (fuel : Nat) :
    List Nat → Nat → List DomNode → Option (List DomNode)
  | [], _, nodes => some nodes
  | b :: rem, i, nodes =>
    match computeIdom nodes cfg fuel b with
    | none => none
    | some d => initDomLoop cfg fuel rem (i + 1) (nodes.set b ⟨(i + 3) * 4, some d⟩)

/-- Body of the `while changed` refinement loop of
`DomTree::compute_domtree` for one block: recompute the idom against the
current in-place state, update the node and raise the changed flag when it
differs. -/
def iterStep (cfg : CFG) (fuel : Nat) (st : List DomNode × Bool) (b : Nat) :
    Option (List DomNode × Bool) :=
  match computeIdom st.1 cfg fuel b with
  | none => none
  | some ni =>
    if (st.1.getD b default).idom ≠ some ni then
      some (st.1.set b { st.1.getD b default with idom := some ni }, true)
    else some st

/-- The `while changed` refinement loop of `DomTree::compute_domtree`: one
pass recomputes every non-entry idom in traversal order against the
in-place state; passes repeat while some idom changed.  The outer fuel
bounds the number of passes. -/
def iterDomLoop (cfg : CFG) (fuel : Nat) (rest : List Nat) :
    Nat → List DomNode → Option (List DomNode)
  | 0, _ => none
  | outer + 1, nodes =>
    match rest.foldlM (iterStep cfg fuel) (nodes, false) with
    | none => none
    | some (nodes', changed) =>
      if changed then iterDomLoop cfg fuel rest outer nodes'
      else some nodes'

/-- `DomTree::compute_domtree`: an empty traversal order returns
immediately; otherwise the entry (the head of the order) receives rank
`2 * STRIDE` and the two passes run over the remaining blocks. -/
def computeDomtree (cfg : CFG) (fuel : Nat) :
    List Nat → List DomNode → Option (List DomNode)
  | [], nodes => some nodes
  | eb :: rest, nodes =>
    match initDomLoop cfg fuel rest 0
        (nodes.set eb { nodes.getD eb default with rpo := 2 * 4 }) with
    | none => none
    | some nodes2 => iterDomLoop cfg fuel rest fuel nodes2

/-- `DomTree::build`: run `compute_postorder` — the same explicit-stack DFS
from block 0 as the liveness traversal, recording visitation (pre)order —
and then `compute_domtree` on a default node map of capacity
`blocks_count`. -/
def DomTree.build (cfg : CFG) (fuel : Nat) : Option DomTree :=
  match dfsAux cfg.succList fuel [0] ∅ [] with
  | none => none
  | some ord =>
    match computeDomtree cfg fuel ord (List.replicate cfg.blocksCount default) with
    | none => none
    | some nodes => some ⟨nodes, ord⟩

/-- The `while a_rpo < rpo[b]` walk of `DomTree::dominates`: `some none` is
the source's early `return false` (no immediate dominator), `some (some b)`
is normal exit with the final walked block, and `none` is exhausted fuel
(the source loop is unbounded). -/
def dominatesLoop (nodes : List DomNode) (aRpo : Nat) :
    Nat → Nat → Option (Option Nat)
  | 0, _ => none
  | fuel + 1, b =>
    if aRpo < (nodes.getD b default).rpo then
      match (nodes.getD b default).idom with
      | some i => dominatesLoop nodes aRpo fuel i
      | none => some none
    else some (some b)

/-- Query `DomTree::dominates(a, b)`: equal blocks dominate; otherwise `b`
walks its immediate-dominator chain while its rank exceeds `a`'s, and the
query holds iff the walk lands on `a`. -/
def DomTree.dominates (dt : DomTree) (a b : Nat) (fuel : Nat) : Option Bool :=
  if a = b then some true
  else
    match dominatesLoop dt.nodes (dt.nodes.getD a default).rpo fuel b with
    | none => none
    | some none => some false
    | some (some bf) => some (decide (a = bf))

/-- Rank bookkeeping for the dominator proofs: the rank a block receives
from its position in the traversal order (`2 * STRIDE` for the head at
position 0, `(i + 3) * STRIDE` for the block at position `i` of the tail,
i.e. `(pos + 2) * 4` uniformly), and 0 for unvisited blocks. -/
def rankAux (x : Nat) : List Nat → Nat → Nat
  | [], _ => 0
  | b :: rest, k => if x = b then k else rankAux x rest (k + 4)

/-- Rank of a block relative to a traversal order. -/
def rankOf (ord : List Nat) (x : Nat) : Nat := rankAux x ord 8

/-- The default node value. -/
theorem default_domNode : (default : DomNode) = ⟨0, none⟩ := rfl

/-- Lookup in the freshly allocated node map. -/
theorem getD_replicate_domNode (k n : Nat) :
    (List.replicate n (default : DomNode)).getD k default = default := by
  rw [List.getD_eq_getElem?_getD, List.getElem?_replicate]
  split <;> rfl

/-- Rank of a block absent from the order. -/
theorem rankAux_of_not_mem {x : Nat} :
    ∀ (l : List Nat) (k : Nat), x ∉ l → rankAux x l k = 0 := by
  intro l
  induction l with
  | nil => intro k _; rfl
  | cons b l ih =>
    intro k h
    have hxb : x ≠ b := fun hh => h (by simp [hh])
    simp only [rankAux, if_neg hxb]
    exact ih (k + 4) (fun hh => h (List.mem_cons_of_mem _ hh))

/-- Rank lower bound for a recorded block. -/
theorem rankAux_le {x : Nat} :
    ∀ (l : List Nat) (k : Nat), x ∈ l → k ≤ rankAux x l k := by
  intro l
  induction l with
  | nil => intro k h; simp at h
  | cons b l ih =>
    intro k h
    by_cases hxb : x = b
    · simp only [rankAux, if_pos hxb]
      exact le_rfl
    · simp only [rankAux, if_neg hxb]
      have hx : x ∈ l := by
        rcases List.mem_cons.mp h with h1 | h1
        · exact absurd h1 hxb
        · exact h1
      calc k ≤ k + 4 := by omega
        _ ≤ rankAux x l (k + 4) := ih (k + 4) hx

/-- An earlier block of a duplicate-free order has a smaller rank. -/
theorem rankAux_lt_of_sublist {a b : Nat} :
    ∀ (l : List Nat) (k : Nat), l.Nodup → [a, b].Sublist l →
      rankAux a l k < rankAux b l k := by
  intro l
  induction l with
  | nil => intro k _ h; simp at h
  | cons c l ih =>
    intro k hnd h
    obtain ⟨hcl, hndl⟩ := List.nodup_cons.mp hnd
    cases h with
    | cons _ hp =>
      have ha : a ∈ l := hp.subset (by simp)
      have hb : b ∈ l := hp.subset (by simp)
      have hac : a ≠ c := fun hh => hcl (hh ▸ ha)
      have hbc : b ≠ c := fun hh => hcl (hh ▸ hb)
      simp only [rankAux, if_neg hac, if_neg hbc]
      exact ih (k + 4) hndl hp
    | cons₂ _ hp =>
      have hb : b ∈ l := hp.subset (by simp)
      have hba : b ≠ a := fun hh => hcl (hh ▸ hb)
      have h1 : rankAux a (a :: l) k = k := by simp [rankAux]
      have h2 : rankAux b (a :: l) k = rankAux b l (k + 4) := by simp [rankAux, hba]
      rw [h1, h2]
      have h3 := rankAux_le (x := b) l (k + 4) hb
      omega

/-- Rank of a block by its position in the order. -/
theorem rankAux_append {x : Nat} :
    ∀ (l1 l2 : List Nat) (k : Nat), x ∉ l1 →
      rankAux x (l1 ++ x :: l2) k = k + 4 * l1.length := by
  intro l1
  induction l1 with
  | nil => intro l2 k _; simp [rankAux]
  | cons c l1 ih =>
    intro l2 k h
    have hxc : x ≠ c := fun hh => h (by simp [hh])
    have hx1 : x ∉ l1 := fun hh => h (List.mem_cons_of_mem _ hh)
    show rankAux x (c :: (l1 ++ x :: l2)) k = k + 4 * (c :: l1).length
    simp only [rankAux, if_neg hxc]
    rw [ih l2 (k + 4) hx1]
    simp only [List.length_cons]
    omega

/-- In a duplicate-free list, a block paired before `b` lies in the part of
the list before `b`. -/
theorem mem_left_of_sublist_pair {a b : Nat} :
    ∀ (l1 l2 : List Nat), (l1 ++ b :: l2).Nodup →
      [a, b].Sublist (l1 ++ b :: l2) → a ∈ l1 := by
  intro l1
  induction l1 with
  | nil =>
    intro l2 hnd h
    exfalso
    simp only [List.nil_append] at hnd h
    obtain ⟨hbl, -⟩ := List.nodup_cons.mp hnd
    cases h with
    | cons _ hp => exact hbl (hp.subset (by simp))
    | cons₂ _ hp => exact hbl (hp.subset (by simp))
  | cons c l1 ih =>
    intro l2 hnd h
    simp only [List.cons_append] at hnd h
    obtain ⟨-, hndl⟩ := List.nodup_cons.mp hnd
    cases h with
    | cons _ hp => exact List.mem_cons_of_mem _ (ih l2 hndl hp)
    | cons₂ _ hp => exact List.mem_cons_self _ _

/-- Traversal facts beyond `dfsAux_spec`, proved by the same stack
induction: the visitation order has no duplicates, stays inside the arena,
and — the discovery property — every recorded block other than the root is
a successor of a block recorded strictly earlier; moreover the
already-recorded order is only extended. -/
theorem dfsAux_discovery (succs : Nat → List Nat) (n : Nat)
    (hbnd : ∀ a x, x ∈ succs a → x < n) :
    ∀ (fuel : Nat) (stack : List Nat) (visited : Finset Nat) (order res : List Nat),
    dfsAux succs fuel stack visited order = some res →
    (∀ x, x ∈ visited ↔ x ∈ order) →
    order.Nodup →
    (∀ s ∈ stack, s < n) →
    (∀ b ∈ order, b < n) →
    (∀ s ∈ stack, s = 0 ∨ ∃ a ∈ order, s ∈ succs a) →
    (∀ b ∈ order, b ≠ 0 → ∃ a, b ∈ succs a ∧ [a, b].Sublist order) →
    res.Nodup ∧ (∀ b ∈ res, b < n)
      ∧ (∀ b ∈ res, b ≠ 0 → ∃ a, b ∈ succs a ∧ [a, b].Sublist res)
      ∧ ∃ δ, res = order ++ δ := by
  intro fuel
  induction fuel with
  | zero => intro stack visited order res h; simp [dfsAux] at h
  | succ fuel ih =>
    intro stack visited order res h hv hnd hsn hon hD hP
    cases stack with
    | nil =>
      have hres : order = res := by simpa [dfsAux] using h
      subst hres
      exact ⟨hnd, hon, hP, [], by simp⟩
    | cons b stack' =>
      rw [dfsAux] at h
      by_cases hb : b ∈ visited
      · rw [if_pos hb] at h
        exact ih stack' visited order res h hv hnd
          (fun s hs => hsn s (List.mem_cons_of_mem _ hs)) hon
          (fun s hs => hD s (List.mem_cons_of_mem _ hs)) hP
      · rw [if_neg hb] at h
        have hbn : b < n := hsn b (List.mem_cons_self _ _)
        have hbo : b ∉ order := fun hh => hb ((hv b).mpr hh)
        have hv' : ∀ x, x ∈ insert b visited ↔ x ∈ order ++ [b] := by
          intro x
          rw [Finset.mem_insert, List.mem_append, List.mem_singleton, hv x]
          tauto
        have hnd' : (order ++ [b]).Nodup := by
          rw [List.nodup_append_comm]
          exact List.nodup_cons.mpr ⟨hbo, hnd⟩
        have hsn' : ∀ s ∈ ((succs b).filter
            (fun s => decide (s ∉ insert b visited))).reverse ++ stack', s < n := by
          intro s hs
          rcases List.mem_append.mp hs with hs | hs
          · exact hbnd b s (List.mem_filter.mp (List.mem_reverse.mp hs)).1
          · exact hsn s (List.mem_cons_of_mem _ hs)
        have hon' : ∀ x ∈ order ++ [b], x < n := by
          intro x hx
          rcases List.mem_append.mp hx with hx | hx
          · exact hon x hx
          · rw [List.mem_singleton] at hx; exact hx ▸ hbn
        have hD' : ∀ s ∈ ((succs b).filter
            (fun s => decide (s ∉ insert b visited))).reverse ++ stack',
            s = 0 ∨ ∃ a ∈ order ++ [b], s ∈ succs a := by
          intro s hs
          rcases List.mem_append.mp hs with hs | hs
          · exact Or.inr ⟨b, List.mem_append.mpr (Or.inr (List.mem_singleton.mpr rfl)),
              (List.mem_filter.mp (List.mem_reverse.mp hs)).1⟩
          · rcases hD s (List.mem_cons_of_mem _ hs) with h1 | ⟨a, ha, hsa⟩
            · exact Or.inl h1
            · exact Or.inr ⟨a, List.mem_append.mpr (Or.inl ha), hsa⟩
        have hP' : ∀ x ∈ order ++ [b], x ≠ 0 →
            ∃ a, x ∈ succs a ∧ [a, x].Sublist (order ++ [b]) := by
          intro x hx hx0
          rcases List.mem_append.mp hx with hx | hx
          · obtain ⟨a, hxa, hsub⟩ := hP x hx hx0
            exact ⟨a, hxa, hsub.trans (List.sublist_append_left _ _)⟩
          · rw [List.mem_singleton] at hx
            subst hx
            rcases hD x (List.mem_cons_self _ _) with h1 | ⟨a, ha, hsa⟩
            · exact absurd h1 hx0
            · refine ⟨a, hsa, ?_⟩
              have h1 : [a].Sublist order := List.singleton_sublist.mpr ha
              have h2 := List.Sublist.append h1 (List.Sublist.refl [x])
              simpa using h2
        obtain ⟨r1, r2, r3, δ, hδ⟩ := ih _ _ _ res h hv' hnd' hsn' hon' hD' hP'
        refine ⟨r1, r2, r3, [b] ++ δ, ?_⟩
        rw [hδ, List.append_assoc]

/-- State invariant of `compute_domtree` relative to the traversal order
`ord` and the processed non-entry blocks `done`: the node map has arena
capacity, the entry holds rank 8 and no idom, every processed block holds
its positional rank and an idom among the already-ranked blocks of
strictly smaller rank, and every other block still holds the default
node. -/
def DomInv (n : Nat) (ord done : List Nat) (N : List DomNode) : Prop :=
  N.length = n
  ∧ N.getD 0 default = ⟨8, none⟩
  ∧ (∀ b ∈ done, ∃ d, N.getD b default = ⟨rankOf ord b, some d⟩
      ∧ d ∈ (0 : Nat) :: done ∧ rankOf ord d < rankOf ord b)
  ∧ (∀ x : Nat, x ∉ (0 : Nat) :: done → N.getD x default = default)

/-- Stored rank of a ranked block. -/
theorem domInv_rpo {n : Nat} {ord done : List Nat} {N : List DomNode}
    (hinv : DomInv n ord done N) (h0 : rankOf ord 0 = 8) {x : Nat}
    (hx : x ∈ (0 : Nat) :: done) :
    (N.getD x default).rpo = rankOf ord x := by
  rcases List.mem_cons.mp hx with rfl | hx
  · rw [hinv.2.1]; exact h0.symm
  · obtain ⟨d, hnode, -, -⟩ := hinv.2.2.1 x hx
    rw [hnode]

/-- Partial correctness of `common_dominator` under the state invariant:
when the walk terminates it lands on a ranked block whose rank is at most
either argument's rank. -/
theorem commonDominator_spec {n : Nat} {ord done : List Nat} {N : List DomNode}
    (hinv : DomInv n ord done N) (h0 : rankOf ord 0 = 8)
    (h8 : ∀ x ∈ (0 : Nat) :: done, 8 ≤ rankOf ord x) :
    ∀ (fuel a b d : Nat), a ∈ (0 : Nat) :: done → b ∈ (0 : Nat) :: done →
    commonDominator N fuel a b = some d →
    d ∈ (0 : Nat) :: done ∧ rankOf ord d ≤ rankOf ord a
      ∧ rankOf ord d ≤ rankOf ord b := by
  intro fuel
  induction fuel with
  | zero => intro a b d _ _ h; simp [commonDominator] at h
  | succ fuel ih =>
    intro a b d ha hb h
    rw [commonDominator] at h
    rw [domInv_rpo hinv h0 ha, domInv_rpo hinv h0 hb] at h
    by_cases hab : rankOf ord a < rankOf ord b
    · rw [if_pos hab] at h
      have hbd : b ∈ done := by
        rcases List.mem_cons.mp hb with rfl | hbd
        · have := h8 a ha
          rw [h0] at hab
          omega
        · exact hbd
      obtain ⟨db, hnode, hdbmem, hdblt⟩ := hinv.2.2.1 b hbd
      rw [hnode] at h
      have h' : commonDominator N fuel a db = some d := h
      obtain ⟨r1, r2, r3⟩ := ih a db d ha hdbmem h'
      exact ⟨r1, r2, le_trans r3 (le_of_lt hdblt)⟩
    · rw [if_neg hab] at h
      by_cases hba : rankOf ord b < rankOf ord a
      · rw [if_pos hba] at h
        have had : a ∈ done := by
          rcases List.mem_cons.mp ha with rfl | had
          · have := h8 b hb
            rw [h0] at hba
            omega
          · exact had
        obtain ⟨da, hnode, hdamem, hdalt⟩ := hinv.2.2.1 a had
        rw [hnode] at h
        have h' : commonDominator N fuel da b = some d := h
        obtain ⟨r1, r2, r3⟩ := ih da b d hdamem hb h'
        exact ⟨r1, le_trans r2 (le_of_lt hdalt), r3⟩
      · rw [if_neg hba] at h
        have had : a = d := by simpa using h
        subst had
        exact ⟨ha, le_rfl, by omega⟩

/-- The `compute_idom` fold of `common_dominator` over the remaining ranked
predecessors: the result is ranked and its rank is bounded by the start
value's rank and by every folded predecessor's rank. -/
theorem foldCommon_spec {n : Nat} {ord done : List Nat} {N : List DomNode}
    (hinv : DomInv n ord done N) (h0 : rankOf ord 0 = 8)
    (h8 : ∀ x ∈ (0 : Nat) :: done, 8 ≤ rankOf ord x) (fuel : Nat) :
    ∀ (l : List Nat) (cur d : Nat), cur ∈ (0 : Nat) :: done →
    (∀ p ∈ l, p ∈ (0 : Nat) :: done) →
    l.foldlM (fun c p => commonDominator N fuel c p) cur = some d →
    d ∈ (0 : Nat) :: done ∧ rankOf ord d ≤ rankOf ord cur
      ∧ ∀ p ∈ l, rankOf ord d ≤ rankOf ord p := by
  intro l
  induction l with
  | nil =>
    intro cur d hcur _ h
    have : cur = d := by simpa using h
    subst this
    exact ⟨hcur, le_rfl, by simp⟩
  | cons p l ih =>
    intro cur d hcur hl h
    rw [List.foldlM_cons] at h
    cases hg : commonDominator N fuel cur p with
    | none => rw [hg] at h; simp at h
    | some c1 =>
      rw [hg] at h
      simp only [Option.bind_eq_bind, Option.some_bind] at h
      obtain ⟨m1, m2, m3⟩ := commonDominator_spec hinv h0 h8 fuel cur p c1 hcur
        (hl p (List.mem_cons_self _ _)) hg
      obtain ⟨r1, r2, r3⟩ := ih c1 d m1 (fun q hq => hl q (List.mem_cons_of_mem _ hq)) h
      refine ⟨r1, le_trans r2 m2, ?_⟩
      intro q hq
      rcases List.mem_cons.mp hq with rfl | hq
      · exact le_trans r2 m3
      · exact r3 q hq

/-- Partial correctness of `compute_idom`: given one ranked predecessor of
strictly smaller rank (the block's DFS discoverer), a successful
computation returns a ranked block of strictly smaller rank. -/
theorem computeIdom_spec {n : Nat} {ord done : List Nat} {N : List DomNode}
    (hinv : DomInv n ord done N) (h0 : rankOf ord 0 = 8)
    (h8 : ∀ x ∈ (0 : Nat) :: done, 8 ≤ rankOf ord x)
    {cfg : CFG} {fuel b d : Nat}
    (hd : computeIdom N cfg fuel b = some d)
    (a : Nat) (hapred : a ∈ cfg.predList b) (hamem : a ∈ (0 : Nat) :: done)
    (halt : rankOf ord a < rankOf ord b) :
    d ∈ (0 : Nat) :: done ∧ rankOf ord d < rankOf ord b := by
  unfold computeIdom at hd
  have hfil : ∀ p ∈ (cfg.predList b).filter
      (fun p => decide (1 < (N.getD p default).rpo)), p ∈ (0 : Nat) :: done := by
    intro p hp
    by_contra hpc
    have hdef := hinv.2.2.2 p hpc
    have hlt := (List.mem_filter.mp hp).2
    rw [hdef] at hlt
    simp [default_domNode] at hlt
  have hamemf : a ∈ (cfg.predList b).filter
      (fun p => decide (1 < (N.getD p default).rpo)) := by
    rw [List.mem_filter]
    refine ⟨hapred, ?_⟩
    rw [domInv_rpo hinv h0 hamem]
    have := h8 a hamem
    simp only [decide_eq_true_eq]
    omega
  cases hfl : (cfg.predList b).filter (fun p => decide (1 < (N.getD p default).rpo)) with
  | nil => rw [hfl] at hamemf; simp at hamemf
  | cons p0 l =>
    rw [hfl] at hd hamemf hfil
    have hd' : l.foldlM (fun c p => commonDominator N fuel c p) p0 = some d := hd
    obtain ⟨r1, r2, r3⟩ := foldCommon_spec hinv h0 h8 fuel l p0 d
      (hfil p0 (List.mem_cons_self _ _)) (fun q hq => hfil q (List.mem_cons_of_mem _ hq)) hd'
    refine ⟨r1, ?_⟩
    rcases List.mem_cons.mp hamemf with rfl | haf
    · exact lt_of_le_of_lt r2 halt
    · exact lt_of_le_of_lt (r3 a haf) halt

/-- The initial pass of `compute_domtree` establishes the state invariant
for all non-entry blocks of the traversal order. -/
theorem initDomLoop_spec (cfg : CFG) (fuel n : Nat) (ord rest : List Nat)
    (hord : ord = 0 :: rest) (hnd : ord.Nodup) (hbmem : ∀ b ∈ ord, b < n)
    (hcons : cfg.consistent)
    (hdisc : ∀ b ∈ rest, ∃ a, b ∈ cfg.succList a ∧ [a, b].Sublist ord) :
    ∀ (rem done : List Nat) (N N' : List DomNode),
    rest = done ++ rem →
    DomInv n ord done N →
    initDomLoop cfg fuel rem done.length N = some N' →
    DomInv n ord rest N' := by
  intro rem
  induction rem with
  | nil =>
    intro done N N' hsplit hinv h
    have hNN : N = N' := by simpa [initDomLoop] using h
    subst hNN
    rw [hsplit, List.append_nil]
    exact hinv
  | cons b rem ih =>
    intro done N N' hsplit hinv h
    rw [initDomLoop] at h
    have h0 : rankOf ord 0 = 8 := by rw [hord]; simp [rankOf, rankAux]
    have h8 : ∀ x ∈ (0 : Nat) :: done, 8 ≤ rankOf ord x := by
      intro x hx
      have hxord : x ∈ ord := by
        rw [hord]
        rcases List.mem_cons.mp hx with rfl | hx
        · exact List.mem_cons_self _ _
        · exact List.mem_cons_of_mem _
            (by rw [hsplit]; exact List.mem_append.mpr (Or.inl hx))
      exact rankAux_le ord 8 hxord
    have hbrest : b ∈ rest := by
      rw [hsplit]; exact List.mem_append.mpr (Or.inr (List.mem_cons_self _ _))
    have hndrest : rest.Nodup := (List.nodup_cons.mp (by rw [hord] at hnd; exact hnd)).2
    have h0rest : (0 : Nat) ∉ rest := (List.nodup_cons.mp (by rw [hord] at hnd; exact hnd)).1
    have hb0 : b ≠ 0 := fun hh => h0rest (hh ▸ hbrest)
    have hbdone : b ∉ done := by
      intro hbd
      rw [hsplit] at hndrest
      exact (List.nodup_append.mp hndrest).2.2 hbd (List.mem_cons_self _ _)
    obtain ⟨a, hsucc, hsub⟩ := hdisc b hbrest
    have hapred : a ∈ cfg.predList b := (hcons a b).mp hsucc
    have hordsplit : ord = ((0 : Nat) :: done) ++ b :: rem := by
      rw [hord, hsplit]; simp
    have hamem : a ∈ (0 : Nat) :: done :=
      mem_left_of_sublist_pair ((0 : Nat) :: done) rem (hordsplit ▸ hnd) (hordsplit ▸ hsub)
    have halt : rankOf ord a < rankOf ord b := rankAux_lt_of_sublist ord 8 hnd hsub
    cases hci : computeIdom N cfg fuel b with
    | none => rw [hci] at h; simp at h
    | some d =>
      simp only [hci] at h
      obtain ⟨hdmem, hdlt⟩ := computeIdom_spec hinv h0 h8 hci a hapred hamem halt
      have hrb : rankOf ord b = (done.length + 3) * 4 := by
        rw [hordsplit]
        show rankAux b ((0 : Nat) :: (done ++ b :: rem)) 8 = _
        simp only [rankAux, if_neg hb0]
        rw [rankAux_append done rem (8 + 4) hbdone]
        omega
      have hbltn : b < n := hbmem b (by rw [hord]; exact List.mem_cons_of_mem _ hbrest)
      have hNlen : N.length = n := hinv.1
      have hinv' : DomInv n ord (done ++ [b])
          (N.set b ⟨(done.length + 3) * 4, some d⟩) := by
        refine ⟨by simp [hNlen], ?_, ?_, ?_⟩
        · rw [listGetD_set_other _ _ _ _ _ (fun hh : b = 0 => hb0 hh)]
          exact hinv.2.1
        · intro x hx
          rcases List.mem_append.mp hx with hx | hx
          · have hxb : x ≠ b := fun hh => hbdone (hh ▸ hx)
            obtain ⟨dx, hnode, hdx, hlt⟩ := hinv.2.2.1 x hx
            refine ⟨dx, ?_, ?_, hlt⟩
            · rw [listGetD_set_other _ _ _ _ _ (fun hh : b = x => hxb hh.symm)]
              exact hnode
            · rcases List.mem_cons.mp hdx with rfl | hdx
              · exact List.mem_cons_self _ _
              · exact List.mem_cons_of_mem _ (List.mem_append.mpr (Or.inl hdx))
          · rw [List.mem_singleton] at hx
            subst hx
            refine ⟨d, ?_, ?_, hdlt⟩
            · rw [listGetD_set_self _ _ _ _ (by rw [hNlen]; exact hbltn), hrb]
            · rcases List.mem_cons.mp hdmem with rfl | hdx
              · exact List.mem_cons_self _ _
              · exact List.mem_cons_of_mem _ (List.mem_append.mpr (Or.inl hdx))
        · intro x hx
          have hxb : x ≠ b := fun hh => hx
            (hh ▸ List.mem_cons_of_mem _
              (List.mem_append.mpr (Or.inr (List.mem_singleton.mpr rfl))))
          have hxd : x ∉ (0 : Nat) :: done := by
            intro hh
            rcases List.mem_cons.mp hh with rfl | hh
            · exact hx (List.mem_cons_self _ _)
            · exact hx (List.mem_cons_of_mem _ (List.mem_append.mpr (Or.inl hh)))
          rw [listGetD_set_other _ _ _ _ _ (fun hh : b = x => hxb hh.symm)]
          exact hinv.2.2.2 x hxd
      have hsplit' : rest = (done ++ [b]) ++ rem := by rw [hsplit]; simp
      have hlen' : (done ++ [b]).length = done.length + 1 := by simp
      exact ih (done ++ [b]) _ N' hsplit' hinv' (by rw [hlen']; exact h)

/-- One refinement step of the `while changed` loop preserves the state
invariant: the recomputed idom is again a ranked block of strictly smaller
rank. -/
theorem iterStep_spec (cfg : CFG) (fuel n : Nat) (ord rest : List Nat)
    (hord : ord = 0 :: rest) (hnd : ord.Nodup) (hbmem : ∀ b ∈ ord, b < n)
    (hcons : cfg.consistent)
    (hdisc : ∀ b ∈ rest, ∃ a, b ∈ cfg.succList a ∧ [a, b].Sublist ord) :
    ∀ (st st' : List DomNode × Bool) (b : Nat), b ∈ rest →
    DomInv n ord rest st.1 →
    iterStep cfg fuel st b = some st' →
    DomInv n ord rest st'.1 := by
  intro st st' b hbrest hinv hg
  unfold iterStep at hg
  have h0 : rankOf ord 0 = 8 := by rw [hord]; simp [rankOf, rankAux]
  have h8 : ∀ x ∈ (0 : Nat) :: rest, 8 ≤ rankOf ord x := by
    intro x hx
    exact rankAux_le ord 8 (by rw [hord]; exact hx)
  have h0rest : (0 : Nat) ∉ rest := (List.nodup_cons.mp (by rw [hord] at hnd; exact hnd)).1
  have hb0 : b ≠ 0 := fun hh => h0rest (hh ▸ hbrest)
  cases hci : computeIdom st.1 cfg fuel b with
  | none => rw [hci] at hg; simp at hg
  | some ni =>
    simp only [hci] at hg
    obtain ⟨a, hsucc, hsub⟩ := hdisc b hbrest
    have hapred : a ∈ cfg.predList b := (hcons a b).mp hsucc
    have hamem : a ∈ (0 : Nat) :: rest := by
      rw [← hord]
      exact hsub.subset (List.mem_cons_self _ _)
    have halt : rankOf ord a < rankOf ord b := rankAux_lt_of_sublist ord 8 hnd hsub
    obtain ⟨hdmem, hdlt⟩ := computeIdom_spec hinv h0 h8 hci a hapred hamem halt
    split at hg
    · have hst' : st' = (st.1.set b { st.1.getD b default with idom := some ni }, true) := by
        exact (Option.some_inj.mp hg).symm
      subst hst'
      obtain ⟨dOld, hnode, -, -⟩ := hinv.2.2.1 b hbrest
      have hbltn : b < n := hbmem b (by rw [hord]; exact List.mem_cons_of_mem _ hbrest)
      have hNlen : st.1.length = n := hinv.1
      refine ⟨by simp [hNlen], ?_, ?_, ?_⟩
      · rw [listGetD_set_other _ _ _ _ _ (fun hh : b = 0 => hb0 hh)]
        exact hinv.2.1
      · intro x hx
        by_cases hxb : x = b
        · subst hxb
          refine ⟨ni, ?_, hdmem, hdlt⟩
          rw [listGetD_set_self _ _ _ _ (by rw [hNlen]; exact hbltn), hnode]
        · obtain ⟨dx, hnodex, hdx, hltx⟩ := hinv.2.2.1 x hx
          refine ⟨dx, ?_, hdx, hltx⟩
          rw [listGetD_set_other _ _ _ _ _ (fun hh : b = x => hxb hh.symm)]
          exact hnodex
      · intro x hx
        have hxb : x ≠ b := fun hh => hx (hh ▸ List.mem_cons_of_mem _ hbrest)
        rw [listGetD_set_other _ _ _ _ _ (fun hh : b = x => hxb hh.symm)]
        exact hinv.2.2.2 x hx
    · have hst' : st' = st := by exact (Option.some_inj.mp hg).symm
      subst hst'
      exact hinv

/-- The `while changed` loop preserves the state invariant. -/
theorem iterDomLoop_spec (cfg : CFG) (fuel n : Nat) (ord rest : List Nat)
    (hord : ord = 0 :: rest) (hnd : ord.Nodup) (hbmem : ∀ b ∈ ord, b < n)
    (hcons : cfg.consistent)
    (hdisc : ∀ b ∈ rest, ∃ a, b ∈ cfg.succList a ∧ [a, b].Sublist ord) :
    ∀ (outer : Nat) (N N' : List DomNode),
    DomInv n ord rest N →
    iterDomLoop cfg fuel rest outer N = some N' →
    DomInv n ord rest N' := by
  intro outer
  induction outer with
  | zero => intro N N' _ h; simp [iterDomLoop] at h
  | succ outer ih =>
    intro N N' hinv h
    rw [iterDomLoop] at h
    cases hfold : rest.foldlM (iterStep cfg fuel) (N, false) with
    | none => rw [hfold] at h; simp at h
    | some p =>
      obtain ⟨nodes2, changed⟩ := p
      simp only [hfold] at h
      have hinv2 : DomInv n ord rest nodes2 := by
        have hP := foldlM_inv
          (P := fun st : List DomNode × Bool => DomInv n ord rest st.1)
          (fun st b st' hb hPst hgs =>
            iterStep_spec cfg fuel n ord rest hord hnd hbmem hcons hdisc st st' b hb hPst hgs)
          hinv hfold
        exact hP
      cases changed with
      | true => exact ih nodes2 N' hinv2 h
      | false =>
        have : nodes2 = N' := by simpa using h
        subst this
        exact hinv2

/-- `compute_domtree` on a fresh node map establishes the state invariant
for the whole traversal order. -/
theorem computeDomtree_spec (cfg : CFG) (fuel n : Nat) (ord rest : List Nat)
    (N' : List DomNode)
    (hord : ord = 0 :: rest) (hnd : ord.Nodup) (hbmem : ∀ b ∈ ord, b < n)
    (hn : 0 < n) (hcons : cfg.consistent)
    (hdisc : ∀ b ∈ rest, ∃ a, b ∈ cfg.succList a ∧ [a, b].Sublist ord)
    (h : computeDomtree cfg fuel ord (List.replicate n default) = some N') :
    DomInv n ord rest N' := by
  subst hord
  rw [computeDomtree] at h
  have hinv0 : DomInv n (0 :: rest) []
      ((List.replicate n (default : DomNode)).set 0
        { (List.replicate n (default : DomNode)).getD 0 default with rpo := 2 * 4 }) := by
    refine ⟨by simp, ?_, by simp, ?_⟩
    · rw [listGetD_set_self _ _ _ _ (by simp [hn]), getD_replicate_domNode]
      rfl
    · intro x hx
      have hx0 : x ≠ 0 := fun hh => hx (hh ▸ List.mem_cons_self _ _)
      rw [listGetD_set_other _ _ _ _ _ (fun hh : (0 : Nat) = x => hx0 hh.symm),
        getD_replicate_domNode]
  cases hinit : initDomLoop cfg fuel rest 0
      ((List.replicate n (default : DomNode)).set 0
        { (List.replicate n (default : DomNode)).getD 0 default with rpo := 2 * 4 }) with
  | none => rw [hinit] at h; simp at h
  | some N2 =>
    simp only [hinit] at h
    have hinv2 : DomInv n (0 :: rest) rest N2 :=
      initDomLoop_spec cfg fuel n (0 :: rest) rest rfl hnd hbmem hcons hdisc
        rest [] _ N2 rfl hinv0 hinit
    exact iterDomLoop_spec cfg fuel n (0 :: rest) rest rfl hnd hbmem hcons hdisc
      fuel N2 N' hinv2 h

/-- Under the final state invariant the `dominates` walk from any recorded
block terminates on the entry: each idom step strictly decreases the rank,
every non-entry recorded block has rank above 8, and the entry's rank is
exactly 8. -/
theorem domWalk {n : Nat} {rest : List Nat} {N : List DomNode}
    (hnd : ((0 : Nat) :: rest).Nodup)
    (hinv : DomInv n (0 :: rest) rest N) :
    ∀ (r b : Nat), b ∈ (0 : Nat) :: rest → rankOf (0 :: rest) b ≤ r →
    ∃ k, dominatesLoop N 8 k b = some (some 0) := by
  intro r
  induction r with
  | zero =>
    intro b hb hr
    exfalso
    have := rankAux_le ((0 : Nat) :: rest) 8 hb
    simp only [rankOf] at hr
    omega
  | succ r ih =>
    intro b hb hr
    rcases List.mem_cons.mp hb with rfl | hbrest
    · refine ⟨1, ?_⟩
      rw [dominatesLoop, hinv.2.1]
      rfl
    · have hb0 : b ≠ 0 := fun hh => (List.nodup_cons.mp hnd).1 (hh ▸ hbrest)
      obtain ⟨d, hnode, hdmem, hdlt⟩ := hinv.2.2.1 b hbrest
      have hrb : 8 < (N.getD b default).rpo := by
        rw [hnode]
        show 8 < rankOf ((0 : Nat) :: rest) b
        have hv : rankOf ((0 : Nat) :: rest) b = rankAux b rest (8 + 4) := by
          simp only [rankOf, rankAux, if_neg hb0]
        rw [hv]
        have := rankAux_le rest (8 + 4) hbrest
        omega
      obtain ⟨k, hk⟩ := ih d hdmem (by omega)
      refine ⟨k + 1, ?_⟩
      rw [dominatesLoop, if_pos hrb, hnode]
      exact hk

/-- A terminated walk landing on block 0 makes `dominates(0, b)` true. -/
theorem dominates_of_walk {N : List DomNode} {rpoList : List Nat} {b k : Nat}
    (h8 : N.getD 0 default = ⟨8, none⟩)
    (hk : dominatesLoop N 8 k b = some (some 0)) :
    DomTree.dominates ⟨N, rpoList⟩ 0 b k = some true := by
  unfold DomTree.dominates
  by_cases hb : (0 : Nat) = b
  · rw [if_pos hb]
  · rw [if_neg hb]
    show (match dominatesLoop N (N.getD 0 default).rpo k b with
      | none => none
      | some none => some false
      | some (some bf) => some (decide (0 = bf))) = some true
    have hrpo : (N.getD 0 default).rpo = 8 := by rw [h8]
    rw [hrpo, hk]
    rfl

/-- Claim C5: for every dominator tree built (by `DomTree::build`) from a
CFG produced by a successful `construct_cfg`, `dominates(entry, b)` returns
`true` for every block `b` reachable from the entry block along CFG
successor edges — and the `dominates` walk terminates (the existential
fuel), because every recorded idom link strictly decreases the
reverse-postorder rank until the entry is reached. -/
theorem domtree_entry_dominates {I : Type} (S : InstSet I) (f f' : Func I) (cfg : CFG)
    (fuel : Nat) (dt : DomTree)
    (hcfg : f.constructCfg S = some (.ok (), f'))
    (hcache : f'.cfg = some cfg)
    (hbuild : DomTree.build cfg fuel = some dt)
    (b : Nat) (hreach : Reachable cfg.succList 0 b) :
    ∃ k, dt.dominates 0 b k = some true := by
  obtain ⟨cfg0, hc0, -, hlen, hcons, hbdd, -, -⟩ := constructCfg_ok_char S hcfg
  have hcfg0 : cfg0 = cfg := by
    rw [hc0] at hcache
    exact Option.some_inj.mp hcache
  subst hcfg0
  have hpos : 0 < f.blocks.length := by
    unfold Func.constructCfg at hcfg
    cases hE : f.getEntryBlock with
    | none => rw [hE] at hcfg; simp at hcfg
    | some e =>
      unfold Func.getEntryBlock at hE
      split at hE
      · assumption
      · exact absurd hE (by simp)
  have hn : 0 < cfg0.blocksCount := by
    show 0 < cfg0.nodes.length
    omega
  unfold DomTree.build at hbuild
  cases hdfs : dfsAux cfg0.succList fuel [0] ∅ [] with
  | none => rw [hdfs] at hbuild; simp at hbuild
  | some ord =>
    rw [hdfs] at hbuild
    have hcomp : ∀ q, Reachable cfg0.succList 0 q → q ∈ ord := dfs_complete hdfs
    have hb2 : (match computeDomtree cfg0 fuel ord
        (List.replicate cfg0.blocksCount default) with
      | none => none
      | some nodes => some (DomTree.mk nodes ord)) = some dt := hbuild
    cases hcd : computeDomtree cfg0 fuel ord (List.replicate cfg0.blocksCount default) with
    | none => rw [hcd] at hb2; simp at hb2
    | some N =>
      rw [hcd] at hb2
      have hdt : dt = ⟨N, ord⟩ := by
        have hsome : some (DomTree.mk N ord) = some dt := hb2
        exact (Option.some_inj.mp hsome).symm
      subst hdt
      have hbnd' : ∀ a x, x ∈ cfg0.succList a → x < cfg0.blocksCount :=
        fun a x hx => (hbdd a x).1 hx
      cases fuel with
      | zero => rw [dfsAux] at hdfs; simp at hdfs
      | succ fu =>
        rw [dfsAux] at hdfs
        rw [if_neg (by simp)] at hdfs
        obtain ⟨hndres, hresbnd, hdisc, δ, hδ⟩ :=
          dfsAux_discovery cfg0.succList cfg0.blocksCount hbnd' fu _ _ _ ord hdfs
            (by simp) (by simp)
            (by
              intro s hs
              simp only [List.append_nil, List.mem_reverse, List.mem_filter] at hs
              exact hbnd' 0 s hs.1)
            (by intro x hx; simp at hx; omega)
            (by
              intro s hs
              simp only [List.append_nil, List.mem_reverse, List.mem_filter] at hs
              exact Or.inr ⟨0, by simp, hs.1⟩)
            (by intro x hx hx0; simp at hx; exact absurd hx hx0)
        have hordform : ord = 0 :: δ := by simpa using hδ
        subst hordform
        have hdisc' : ∀ x ∈ δ, ∃ a, x ∈ cfg0.succList a ∧ [a, x].Sublist ((0 : Nat) :: δ) := by
          intro x hx
          have hx0 : x ≠ 0 := fun hh => (List.nodup_cons.mp hndres).1 (hh ▸ hx)
          exact hdisc x (List.mem_cons_of_mem _ hx) hx0
        have hinvN : DomInv cfg0.blocksCount (0 :: δ) δ N :=
          computeDomtree_spec cfg0 (fu + 1) cfg0.blocksCount (0 :: δ) δ N rfl hndres
            hresbnd hn hcons hdisc' hcd
        obtain ⟨k, hk⟩ := domWalk hndres hinvN (rankOf (0 :: δ) b) b (hcomp b hreach) le_rfl
        exact ⟨k, dominates_of_walk hinvN.2.1 hk⟩

/-- Claim C5 witness: on the sample two-block function the dominator tree
builds (entry rank 8, block 1 rank 12 with idom 0) and the entry dominates
the reachable block 1. -/
theorem domtree_entry_dominates_witness :
    Func.constructCfg x64 sampleFunc = some (.ok (), sampleFuncBuilt)
    ∧ sampleFuncBuilt.cfg = some sampleCfg
    ∧ DomTree.build sampleCfg 32 = some ⟨[⟨8, none⟩, ⟨12, some 0⟩], [0, 1]⟩
    ∧ Reachable sampleCfg.succList 0 1
    ∧ ∃ k, DomTree.dominates ⟨[⟨8, none⟩, ⟨12, some 0⟩], [0, 1]⟩ 0 1 k = some true := by
  refine ⟨rfl, rfl, rfl, Reachable.step Reachable.refl (by decide), ?_⟩
  exact domtree_entry_dominates x64 sampleFunc sampleFuncBuilt sampleCfg 32
    ⟨[⟨8, none⟩, ⟨12, some 0⟩], [0, 1]⟩ rfl rfl rfl 1
    (Reachable.step Reachable.refl (by decide))
